import Mathlib

/-!
Verification of the Espruino variable-iterator layer (`src/jsvariterator.c`)
against its natural-language specification.

The heap's segmented strings are embedded as lists of cells; a cell holds its
capacity (`jsvGetMaxCharactersInVar`) and the list of used bytes (so the used
length `jsvGetCharactersInVar` is `data.length`).  A string-chain cursor
(`JsvStringIterator`) is embedded as a zipper: `prev` holds the cells the
cursor has walked past, `var` holds the current cell and everything after it
(`var = []` plays the role of the C iterator's null `var`/`ptr` pair, i.e. the
logical-end state).  Bytes are `Nat` values; well-formed chains keep them
below 256.  Machine counters are embedded as unbounded naturals/integers;
where the C code truncates to a 32-bit `int` the embedding applies `toInt32`
explicitly.
-/

/-- One heap cell of a string chain: its byte capacity and its used bytes. -/
structure Cell where
  cap : Nat
  data : List Nat
  deriving DecidableEq, Repr

/-- The logical byte sequence of a chain: concatenation of the cells' used
prefixes. -/
def chainBytes (s : List Cell) : List Nat := (s.map Cell.data).flatten

/-- Logical length of a chain (sum of the cells' used lengths). -/
def chainLen (s : List Cell) : Nat := (chainBytes s).length

/-- Well-formedness of a string chain, as produced by the heap: the chain is
non-empty, every cell has positive capacity, stores at most `cap` bytes, each
byte is below 256, every non-tail cell is full (invariant I1 of the spec), and
every non-root cell is non-empty (extension cells are created by `append`,
which immediately writes into them). -/
def chainWFb : List Cell → Bool
  | [] => false
  | [c] => 0 < c.cap && c.data.length ≤ c.cap && c.data.all (fun b => b < 256)
  | c :: c2 :: rest =>
      0 < c.cap && c.data.length = c.cap && c.data.all (fun b => b < 256) &&
      !c2.data.isEmpty && chainWFb (c2 :: rest)

/-- The string-chain cursor (`JsvStringIterator`).  `prev` are the cells the
cursor has advanced past (kept so that the whole chain the cursor works on
stays recoverable), `var` is the current cell together with the rest of the
chain (`[]` models the C iterator's null `var`, with the null `ptr` implied),
`charIdx` is the byte offset inside the current cell, `charsInVar` caches the
current cell's used length and `varIndex` the index of the cell's start in the
whole string. -/
structure JsvStringIterator where
  prev : List Cell
  var : List Cell
  charIdx : Nat
  charsInVar : Nat
  varIndex : Nat
  deriving DecidableEq, Repr

/-- The chain a cursor is working on (root cell first). -/
def itChain (it : JsvStringIterator) : List Cell := it.prev ++ it.var

/-- The constructor's skip loop (`while (charIdx>0 && charIdx >= charsInVar)`
in `jsvStringIteratorNew`): walk forward through last-child references,
subtracting used cell lengths.  `startIdx` is carried so that the end-of-chain
branch can reproduce the C code's `varIndex = startIdx - charIdx`. -/
def jsvStringIteratorNewLoop (startIdx : Nat) :
    List Cell → Nat → Nat → List Cell → JsvStringIterator
  | prev, varIndex, charIdx, [] =>
      -- not reachable from a non-empty chain; mirrors a null root
      { prev := prev, var := [], charIdx := charIdx, charsInVar := 0,
        varIndex := varIndex }
  | prev, varIndex, charIdx, cur :: rest =>
      let civ := cur.data.length
      if charIdx > 0 && charIdx ≥ civ then
        match rest with
        | next :: rest2 =>
            jsvStringIteratorNewLoop startIdx (prev ++ [cur]) (varIndex + civ)
              (charIdx - civ) (next :: rest2)
        | [] =>
            -- at end of string: null var/ptr, charsInVar := 0,
            -- varIndex := startIdx - charIdx (the C code keeps the leftover
            -- charIdx in the iterator)
            { prev := prev ++ [cur], var := [], charIdx := charIdx - civ,
              charsInVar := 0, varIndex := startIdx - (charIdx - civ) }
      else
        { prev := prev, var := cur :: rest, charIdx := charIdx,
          charsInVar := civ, varIndex := varIndex }

/-- `jsvStringIteratorNew`: position a cursor on `str` at byte `startIdx`. -/
def jsvStringIteratorNew (str : List Cell) (startIdx : Nat) :
    JsvStringIterator :=
  jsvStringIteratorNewLoop startIdx [] 0 startIdx str

/-- Modelled from the spec: `has-char` is true iff the cell pointer is
non-null and `charIdx < charsInVar` (the body lives in the header, outside
`src/`). -/
def jsvStringIteratorHasChar (it : JsvStringIterator) : Bool :=
  !it.var.isEmpty && it.charIdx < it.charsInVar

/-- Modelled from the spec: `get-char` reads the byte at the current position
(the header's body returns 0 through a null pointer; reads beyond the used
length, which no verified path performs, are idealised as 0). -/
def jsvStringIteratorGetChar (it : JsvStringIterator) : Nat :=
  match it.var with
  | [] => 0
  | c :: _ => c.data.getD it.charIdx 0

/-- `jsvStringIteratorGetCharOrMinusOne`: the current byte, or -1 at logical
end. -/
def jsvStringIteratorGetCharOrMinusOne (it : JsvStringIterator) : Int :=
  match it.var with
  | [] => -1
  | c :: _ =>
      if it.charIdx ≥ it.charsInVar then -1
      else ((c.data.getD it.charIdx 0 : Nat) : Int)

/-- `jsvStringIteratorSetChar`: write the byte at the current position; a
silent no-op at logical end (guarded by has-char). -/
def jsvStringIteratorSetChar (it : JsvStringIterator) (c : Nat) :
    JsvStringIterator :=
  if jsvStringIteratorHasChar it then
    match it.var with
    | [] => it
    | cell :: rest =>
        { it with var := { cell with data := cell.data.set it.charIdx c } :: rest }
  else it

/-- Modelled from the spec: `next` increments `charIdx`; when it reaches
`charsInVar` the cursor advances to the last-child (re-caching `ptr` and
`charsInVar`, `charIdx := 0`), or enters the logical-end state when there is
no last-child (the body lives in the header, outside `src/`; `varIndex`
accumulates the passed cell's used length as in the header). -/
def jsvStringIteratorNextInline (it : JsvStringIterator) : JsvStringIterator :=
  if it.charIdx + 1 ≥ it.charsInVar then
    match it.var with
    | cur :: next :: rest =>
        { prev := it.prev ++ [cur], var := next :: rest, charIdx := 0,
          charsInVar := next.data.length, varIndex := it.varIndex + it.charsInVar }
    | [cur] =>
        { prev := it.prev ++ [cur], var := [], charIdx := 0, charsInVar := 0,
          varIndex := it.varIndex + it.charsInVar }
    | [] =>
        { it with charIdx := 0, charsInVar := 0,
                  varIndex := it.varIndex + it.charsInVar }
  else { it with charIdx := it.charIdx + 1 }

/-- `jsvStringIteratorNext` simply calls the inline advance. -/
def jsvStringIteratorNext (it : JsvStringIterator) : JsvStringIterator :=
  jsvStringIteratorNextInline it

/-- The walk of `jsvStringIteratorGotoEnd`: follow last-child references to
the tail cell, accumulating `varIndex` and re-caching `charsInVar` on every
move. -/
def gotoEndWalk : List Cell → Nat → Nat → List Cell →
    List Cell × List Cell × Nat × Nat
  | prev, varIndex, charsInVar, [] => (prev, [], varIndex, charsInVar)
  | prev, varIndex, charsInVar, [c] => (prev, [c], varIndex, charsInVar)
  | prev, varIndex, charsInVar, c :: c2 :: rest =>
      gotoEndWalk (prev ++ [c]) (varIndex + charsInVar) c2.data.length
        (c2 :: rest)

/-- `jsvStringIteratorGotoEnd`: move to the tail cell and position on its last
byte (position 0 if the tail is empty; in `Nat` both cases are
`charsInVar - 1`). -/
def jsvStringIteratorGotoEnd (it : JsvStringIterator) : JsvStringIterator :=
  match it.var with
  | [] => it  -- the C code asserts it->var here
  | c :: rest =>
      let r := gotoEndWalk it.prev it.varIndex it.charsInVar (c :: rest)
      { prev := r.1, var := r.2.1, charIdx := r.2.2.2 - 1,
        charsInVar := r.2.2.2, varIndex := r.2.2.1 }

/-- `jsvStringIteratorAppend`: write `ch` at the cursor, which must be at the
tail.  When the tail cell is full a fresh extension cell of capacity `extCap`
(the capacity `jsvNewWithFlags JSV_STRING_EXT_0` provides) is attached via the
last-child reference; `allocOK = false` models `jsvNewWithFlags` returning
null, upon which the cursor enters the logical-end state (the C code leaves
`charsInVar` untouched there).  Writing at `charIdx` and then setting the used
length to `charIdx + 1` stores `data.take charIdx ++ [ch]`. -/
def jsvStringIteratorAppend (extCap : Nat) (allocOK : Bool)
    (ch : Nat) (it : JsvStringIterator) : JsvStringIterator :=
  match it.var with
  | [] => it
  | cur :: rest =>
      let charIdx := if it.charsInVar > 0 then it.charIdx + 1 else it.charIdx
      if charIdx ≥ cur.cap then
        if allocOK then
          -- attach the extension cell (jsvSetLastChild) and write into it
          { prev := it.prev ++ [cur], var := [{ cap := extCap, data := [ch] }],
            charIdx := 0, charsInVar := 1, varIndex := it.varIndex + charIdx }
        else
          -- out of memory: null var/ptr, charIdx := 0, charsInVar unchanged
          { prev := it.prev ++ (cur :: rest), var := [], charIdx := 0,
            charsInVar := it.charsInVar, varIndex := it.varIndex }
      else
        { prev := it.prev,
          var := { cap := cur.cap, data := cur.data.take charIdx ++ [ch] } :: rest,
          charIdx := charIdx, charsInVar := charIdx + 1, varIndex := it.varIndex }

/-- Appending a whole byte list through the cursor (the caller's loop around
`jsvStringIteratorAppend`). -/
def appendMany (extCap : Nat) (bytes : List Nat) (it : JsvStringIterator) :
    JsvStringIterator :=
  bytes.foldl (fun acc ch => jsvStringIteratorAppend extCap true ch acc) it

/-- The read loop used by the verification: read the current byte and advance,
until has-char fails (fuel-bounded; any fuel at least the remaining length is
enough). -/
def readChars : Nat → JsvStringIterator → List Nat
  | 0, _ => []
  | fuel + 1, it =>
      if jsvStringIteratorHasChar it then
        jsvStringIteratorGetChar it :: readChars fuel (jsvStringIteratorNext it)
      else []

/-- Read `n` bytes, unconditionally performing get-char/next `n` times (the
pattern of `jsvArrayBufferIteratorGetValueData`'s loop), returning the bytes
and the final cursor. -/
def readRun : Nat → JsvStringIterator → List Nat × JsvStringIterator
  | 0, it => ([], it)
  | n + 1, it =>
      let c := jsvStringIteratorGetChar it
      let r := readRun n (jsvStringIteratorNext it)
      (c :: r.1, r.2)

/-- Write a byte list through the cursor with set-char/next per byte (the
pattern of `jsvArrayBufferIteratorSetValue`'s loop). -/
def writeRun (bs : List Nat) (it : JsvStringIterator) : JsvStringIterator :=
  bs.foldl (fun acc b => jsvStringIteratorNext (jsvStringIteratorSetChar acc b)) it

/-- `jsvStringIteratorAppendString`: append the bytes of `src` from
`startIdx` on, by iterating a source cursor (fuel-bounded by the source's
total length, which bounds the number of has-char successes). -/
def appendStringLoop (extCap : Nat) :
    Nat → JsvStringIterator → JsvStringIterator → JsvStringIterator
  | 0, _, it => it
  | fuel + 1, sit, it =>
      if jsvStringIteratorHasChar sit then
        appendStringLoop extCap fuel (jsvStringIteratorNext sit)
          (jsvStringIteratorAppend extCap true (jsvStringIteratorGetChar sit) it)
      else it

/-- `jsvStringIteratorAppendString` (allocation succeeding). -/
def jsvStringIteratorAppendString (extCap : Nat) (it : JsvStringIterator)
    (src : List Cell) (startIdx : Nat) : JsvStringIterator :=
  appendStringLoop extCap (chainLen src) (jsvStringIteratorNew src startIdx) it

/-! ## Typed-array (array-buffer) views and their element cursor -/

/-- A typed-array element type tag, modelled from the spec (the tag enum lives
in the heap collaborator): element width in bytes, signedness, clamped-ness
and endianness.  The float variants are omitted from the embedding — their
element decode/encode is IEEE-754 bit reinterpretation, which is out of scope
— so every `ABType` is an integer tag; the collaborator's integer tags have
width 1, 2 or 4 (8-byte tags are float-only). -/
structure ABType where
  width : Nat
  signed : Bool
  clamped : Bool
  bigEndian : Bool
  deriving DecidableEq, Repr

/-- The collaborator's valid integer element tags: width 1, 2 or 4, and
clamped only in the 8-bit unsigned variant (the code asserts exactly this). -/
def validIntTag (t : ABType) : Bool :=
  (t.width = 1 || t.width = 2 || t.width = 4) &&
  (!t.clamped || (t.width = 1 && !t.signed))

/-- A typed-array view value: type tag, logical element count, byte offset
into the backing string, and the backing string chain
(`jsvGetArrayBufferBackingString`). -/
structure ABView where
  type : ABType
  length : Nat
  byteOffset : Nat
  backing : List Cell
  deriving DecidableEq, Repr

/-- The typed-view cursor (`JsvArrayBufferIterator`).  `type = none` is the
`ARRAYBUFFERVIEW_UNDEFINED` state. -/
structure JsvArrayBufferIterator where
  index : Nat
  type : Option ABType
  byteLength : Nat
  byteOffset : Nat
  hasAccessedElement : Bool
  it : JsvStringIterator
  deriving DecidableEq, Repr

/-- `JSV_ARRAYBUFFER_GET_SIZE` on the iterator's tag.  Modelled from the
spec/collaborator: the tag stores the width in its low bits and the undefined
tag is the zero tag, so its size is 0. -/
def sizeOfTag : Option ABType → Nat
  | none => 0
  | some t => t.width

/-- `JSV_ARRAYBUFFER_IS_SIGNED` on the iterator's tag (false on the zero
tag). -/
def signedTag : Option ABType → Bool
  | none => false
  | some t => t.signed

/-- `jsvArrayBufferIteratorNew`.  The C code computes
`byteLength := length*width + byteOffset` and
`byteOffset := byteOffset + index*width` and enters the undefined state when
`byteOffset >= byteLength + 1 - width` — a `size_t` subtraction, so when
`width > byteLength + 1` the right side wraps and the comparison is false;
the first conjunct below reproduces that.  In the undefined state the C code
leaves the embedded cursor and the flag uninitialised and never reads them;
the embedding zeroes them. -/
def jsvArrayBufferIteratorNew (view : ABView) (index : Nat) :
    JsvArrayBufferIterator :=
  let w := view.type.width
  let byteLength := view.length * w + view.byteOffset
  let byteOffset := view.byteOffset + index * w
  if w ≤ byteLength + 1 ∧ byteLength + 1 ≤ byteOffset + w then
    { index := index, type := none, byteLength := byteLength,
      byteOffset := byteOffset, hasAccessedElement := false,
      it := { prev := [], var := [], charIdx := 0, charsInVar := 0,
              varIndex := 0 } }
  else
    { index := index, type := some view.type, byteLength := byteLength,
      byteOffset := byteOffset, hasAccessedElement := false,
      it := jsvStringIteratorNew view.backing byteOffset }

/-- `jsvArrayBufferIteratorGetValueData`: read the element's `width` bytes.
For a single-byte element only `get-char` happens (no advance, no flag); for
multi-byte elements every byte read is followed by an advance and the flag is
set; the big-endian loop fills the data buffer from the top, i.e. produces
the reverse of the read order. -/
def jsvArrayBufferIteratorGetValueData (it : JsvArrayBufferIterator) :
    List Nat × JsvArrayBufferIterator :=
  match it.type with
  | none => ([], it)
  | some t =>
      if t.width = 1 then ([jsvStringIteratorGetChar it.it], it)
      else
        let r := readRun t.width it.it
        (if t.bigEndian then r.1.reverse else r.1,
         { it with it := r.2, hasAccessedElement := true })

/-- `jsvArrayBufferIteratorDataToInt` (this revision's body): read a 32-bit
little-endian `int` from the data buffer, sign-extend it to `JsVarInt`, mask
to the low `8*width` bits (`v & ((1<<bits)-1)`, i.e. `emod 2^bits`), and
sign-extend again when the tag is signed and the top masked bit is set
(`v |= ~mask`, i.e. subtract `2^bits`).  The C code reads the buffer's bytes
beyond `width` (uninitialised); they are cancelled by the mask, so the
embedding reads them as 0.  For width 8 the C mask arithmetic is undefined;
integer tags have width at most 4 (8-byte tags are float-only), and the
embedding is faithful for those. -/
def jsvArrayBufferIteratorDataToInt (t : ABType) (data : List Nat) : Int :=
  let bits := 8 * t.width
  let m : Nat := data.getD 0 0 + data.getD 1 0 * 256 + data.getD 2 0 * 65536 +
    data.getD 3 0 * 16777216
  let v : Int := if 2 ^ 31 ≤ m then (m : Int) - 2 ^ 32 else (m : Int)
  let v2 : Int := v.emod (2 ^ bits)
  if t.signed ∧ 2 ^ (bits - 1) ≤ v2 then v2 - 2 ^ bits else v2

/-- `jsvArrayBufferIteratorIntToData`: clamp to `[0,255]` for the clamped tag
(asserted 8-bit unsigned), then store the value's two's-complement bytes
little-endian; byte `j` of the stored `int`/`long long` is
`(v mod 2^64) / 256^j mod 256`. -/
def jsvArrayBufferIteratorIntToData (t : ABType) (v : Int) : List Nat :=
  let v1 : Int :=
    if t.clamped then (if v < 0 then 0 else if 255 < v then 255 else v) else v
  let n : Nat := (v1.emod (2 ^ 64)).toNat
  (List.range t.width).map (fun j => n / 256 ^ j % 256)

/-- `jsvArrayBufferIteratorGetIntegerValue` (returning the value and the
stepped cursor; the float branch does not arise for the embedded integer
tags). -/
def jsvArrayBufferIteratorGetIntegerValue (it : JsvArrayBufferIterator) :
    Int × JsvArrayBufferIterator :=
  match it.type with
  | none => (0, it)
  | some t =>
      let r := jsvArrayBufferIteratorGetValueData it
      (jsvArrayBufferIteratorDataToInt t r.1, r.2)

/-- `jsvArrayBufferIteratorSetValue` on an integer argument (`jsvGetInteger`
of the value is the identity here; the float branch does not arise for the
embedded integer tags).  Multi-byte writes advance after every byte and set
the flag; the big-endian loop writes the data buffer from the top. -/
def jsvArrayBufferIteratorSetValue (it : JsvArrayBufferIterator)
    (value : Int) : JsvArrayBufferIterator :=
  match it.type with
  | none => it
  | some t =>
      let data := jsvArrayBufferIteratorIntToData t value
      if t.width = 1 then
        { it with it := jsvStringIteratorSetChar it.it (data.getD 0 0) }
      else
        let seq := if t.bigEndian then data.reverse else data
        { it with it := writeRun seq it.it, hasAccessedElement := true }

/-- `jsvArrayBufferIteratorSetIntegerValue` (this revision's body): same as
`set-value` except that the write loop has no big-endian branch — the bytes
are always written in little-endian order. -/
def jsvArrayBufferIteratorSetIntegerValue (it : JsvArrayBufferIterator)
    (v : Int) : JsvArrayBufferIterator :=
  match it.type with
  | none => it
  | some t =>
      let data := jsvArrayBufferIteratorIntToData t v
      if t.width = 1 then
        { it with it := jsvStringIteratorSetChar it.it (data.getD 0 0) }
      else
        { it with it := writeRun data it.it, hasAccessedElement := true }

/-- `jsvArrayBufferIteratorHasElement`. -/
def jsvArrayBufferIteratorHasElement (it : JsvArrayBufferIterator) : Bool :=
  match it.type with
  | none => false
  | some t => it.hasAccessedElement || (it.byteOffset + t.width ≤ it.byteLength)

/-- Advance the embedded string cursor `n` times. -/
def nextN : Nat → JsvStringIterator → JsvStringIterator
  | 0, it => it
  | n + 1, it => nextN n (jsvStringIteratorNext it)

/-- `jsvArrayBufferIteratorNext`: increment the logical index and the byte
offset; step the embedded cursor `width` times only when the last access did
not already step it, otherwise just clear the flag. -/
def jsvArrayBufferIteratorNext (it : JsvArrayBufferIterator) :
    JsvArrayBufferIterator :=
  let w := sizeOfTag it.type
  let it2 := { it with index := it.index + 1, byteOffset := it.byteOffset + w }
  if it2.hasAccessedElement then { it2 with hasAccessedElement := false }
  else { it2 with it := nextN w it2.it }

/-- Writing a value sequence through a typed-view cursor from index 0
(set-value then next, per element). -/
def abWriteSeq (view : ABView) (vs : List Int) : JsvArrayBufferIterator :=
  vs.foldl
    (fun itA v => jsvArrayBufferIteratorNext (jsvArrayBufferIteratorSetValue itA v))
    (jsvArrayBufferIteratorNew view 0)

/-- Reading `n` elements through a typed-view cursor (get-integer then next,
per element). -/
def abReadLoop : Nat → JsvArrayBufferIterator → List Int
  | 0, _ => []
  | n + 1, itA =>
      let r := jsvArrayBufferIteratorGetIntegerValue itA
      r.1 :: abReadLoop n (jsvArrayBufferIteratorNext r.2)

/-- Reading the first `n` elements of a view from index 0. -/
def abReadSeq (view : ABView) (n : Nat) : List Int :=
  abReadLoop n (jsvArrayBufferIteratorNew view 0)

/-- The element transformation the spec ascribes to a round trip through an
integer typed view: saturation to `[0,255]` for the clamped tag, otherwise
truncation to the low `8*width` bits, sign-extended when the tag is
signed. -/
def specTruncate (t : ABType) (v : Int) : Int :=
  if t.clamped then (if v < 0 then 0 else if 255 < v then 255 else v)
  else
    let bits := 8 * t.width
    let u := v.emod (2 ^ bits)
    if t.signed ∧ 2 ^ (bits - 1) ≤ u then u - 2 ^ bits else u

/-- The bytes an integer element write stores at the element's position, in
storage order (the big-endian write loop stores the data buffer reversed). -/
def elemStoredBytes (t : ABType) (v : Int) : List Nat :=
  if t.bigEndian then (jsvArrayBufferIteratorIntToData t v).reverse
  else jsvArrayBufferIteratorIntToData t v

/-! ## Heap values and the unified (general-purpose) iterator

Only the `JSVI_FULLARRAY` shape of `JsvIterator` is embedded: it is the shape
every verified claim exercises (the remaining arms delegate directly to the
cursors embedded above). -/

/-- A heap value, covering the kinds the callback walker dispatches on.
An object is flattened to the three properties the walker reads: whether a
`callback` property exists, whether its value is a function, what executing
that function through the interpreter collaborator returns (`none` models a
null return), and the `count`/`data` properties.  `other` is any
non-iterable value (the walker's final type-error branch). -/
inductive JsVal where
  | num (n : Int)
  | str (chain : List Cell)
  | abuf (view : ABView)
  | obj (hasCB : Bool) (cbIsFn : Bool) (cbResult : Option JsVal)
      (countProp : Option JsVal) (dataProp : Option JsVal)
  | arr (len : Nat) (children : List (Nat × JsVal))
  | other
  deriving Repr

/-- An array value as the FULL-ARRAY iterator sees it: its logical length
(`jsvGetArrayLength`) and its sparse integer-named children in storage
order. -/
structure JsArrayObj where
  length : Nat
  children : List (Nat × JsVal)

/-- The `JSVI_FULLARRAY` state of `JsvIterator`: external index, the retained
array, and the object-children cursor (the current child and its
next-siblings). -/
structure JsvIteratorFullArray where
  index : Nat
  arr : JsArrayObj
  it : List (Nat × JsVal)

/-- `jsvIteratorNew` with `JSIF_EVERY_ARRAY_ELEMENT` on an array: index 0 and
an object-children cursor on the array's first child. -/
def jsvIteratorNewFullArray (a : JsArrayObj) : JsvIteratorFullArray :=
  ⟨0, a, a.children⟩

/-- `jsvGetInteger` collaborator coercion (spec-modelled): the integer of a
numeric value; non-numeric values coerce to 0. -/
def jsvGetIntegerV : JsVal → Int
  | .num n => n
  | _ => 0

/-- The float carrier needed by the hole semantics: a NaN sentinel or an
integer-valued float. -/
inductive JsFloat where
  | nan
  | ofInt (n : Int)
  deriving DecidableEq, Repr

/-- `jsvGetFloat` collaborator coercion (spec-modelled): numeric values
convert, anything else is NaN. -/
def jsvGetFloatV : JsVal → JsFloat
  | .num n => .ofInt n
  | _ => .nan

/-- `jsvIteratorGetValue`, FULL-ARRAY arm: the child's value iff the current
child's integer key equals the external index, else the null hole sentinel
(the children are integer-named, so `jsvIsIntegerish` holds for them and
fails for a null child). -/
def jsvIteratorGetValueFA (itr : JsvIteratorFullArray) : Option JsVal :=
  match itr.it with
  | (k, v) :: _ => if k = itr.index then some v else none
  | [] => none

/-- `jsvIteratorGetIntegerValue`, FULL-ARRAY arm (the name-int fast path and
the generic path both produce the child value's integer). -/
def jsvIteratorGetIntegerValueFA (itr : JsvIteratorFullArray) : Int :=
  match itr.it with
  | (k, v) :: _ => if k = itr.index then jsvGetIntegerV v else 0
  | [] => 0

/-- `jsvIteratorGetFloatValue`, FULL-ARRAY arm: NaN at holes. -/
def jsvIteratorGetFloatValueFA (itr : JsvIteratorFullArray) : JsFloat :=
  match itr.it with
  | (k, v) :: _ => if k = itr.index then jsvGetFloatV v else .nan
  | [] => .nan

/-- `jsvIteratorHasElement`, FULL-ARRAY arm: `index < jsvGetArrayLength`. -/
def jsvIteratorHasElementFA (itr : JsvIteratorFullArray) : Bool :=
  itr.index < itr.arr.length

/-- `jsvIteratorNext`, FULL-ARRAY arm: increment the external index; advance
the object-children cursor only when its current key is strictly below the
new index. -/
def jsvIteratorNextFA (itr : JsvIteratorFullArray) : JsvIteratorFullArray :=
  let index := itr.index + 1
  match itr.it with
  | (k, _) :: rest =>
      if k < index then { itr with index := index, it := rest }
      else { itr with index := index }
  | [] => { itr with index := index }

/-- Drain the FULL-ARRAY iterator's values (fuel-bounded; fuel
`arr.length` drains it from a fresh iterator). -/
def faCollectVals : Nat → JsvIteratorFullArray → List (Option JsVal)
  | 0, _ => []
  | n + 1, itr =>
      if jsvIteratorHasElementFA itr then
        jsvIteratorGetValueFA itr :: faCollectVals n (jsvIteratorNextFA itr)
      else []

/-- Drain the FULL-ARRAY iterator's integer values. -/
def faCollectInts : Nat → JsvIteratorFullArray → List Int
  | 0, _ => []
  | n + 1, itr =>
      if jsvIteratorHasElementFA itr then
        jsvIteratorGetIntegerValueFA itr :: faCollectInts n (jsvIteratorNextFA itr)
      else []

/-- Drain the FULL-ARRAY iterator's float values. -/
def faCollectFloats : Nat → JsvIteratorFullArray → List JsFloat
  | 0, _ => []
  | n + 1, itr =>
      if jsvIteratorHasElementFA itr then
        jsvIteratorGetFloatValueFA itr :: faCollectFloats n (jsvIteratorNextFA itr)
      else []

/-- The element the spec ascribes to index `i` of a sparse array: the value
of the first child whose integer key is `i`, if any (a spec-side notion, for
comparison with the FULL-ARRAY cursor's enumeration). -/
def childAt (cs : List (Nat × JsVal)) (i : Nat) : Option JsVal :=
  match cs with
  | [] => none
  | (k, v) :: rest => if k = i then some v else childAt rest i

/-! ## The callback walker (`jsvIterateCallback`) and its consumers

The C walker pushes each produced integer into a caller-supplied sink whose
only effect is on the caller's state, so the walker is embedded as its
emission trace: `jsvIterateCallbackF` returns the outcome flag, the list of
sink arguments in emission order, and the number of type errors reported via
`jsExceptionHere`.  `jsvIterateCallback` then replays the trace into a sink.
The `fuel` argument only bounds the recursion depth; every recursive call is
on a structurally smaller value, so `sizeOf` fuel is always sufficient (and
the fuel-irrelevance lemma below discharges the artifact). -/

/-- Truncation to a 32-bit two's-complement `int` (the C `(int)` casts). -/
def toInt32 (v : Int) : Int :=
  let m := v.emod (2 ^ 32)
  if 2 ^ 31 ≤ m then m - 2 ^ 32 else m

/-- `jsvIsNumeric` on the embedded values. -/
def isNumericV : JsVal → Bool
  | .num _ => true
  | _ => false

/-- The `{data,count}` repetition loop
(`while (ok && n-- > 0) ok = jsvIterateCallback(dataVar, ...)`): run the step
up to `n` times, concatenating emissions and stopping at the first failing
recursion. -/
def iterRepeat (step : Unit → Bool × List Int × Nat) :
    Nat → Bool × List Int × Nat
  | 0 => (true, [], 0)
  | m + 1 =>
      let r := step ()
      if r.1 then
        let r2 := iterRepeat step m
        (r2.1, r.2.1 ++ r2.2.1, r.2.2 + r2.2.2)
      else r

/-- The walker's iterable branch: the FULL-ARRAY loop
(`while (jsvIteratorHasElement(&it) && ok)`), recursing through `f` on each
(possibly null) element, advancing after every recursion.  Fuel
`arr.length` covers the loop. -/
def arrLoopF (f : Option JsVal → Bool × List Int × Nat) :
    Nat → JsvIteratorFullArray → Bool × List Int × Nat
  | 0, _ => (true, [], 0)
  | rem + 1, itr =>
      if jsvIteratorHasElementFA itr then
        let r := f (jsvIteratorGetValueFA itr)
        if r.1 then
          let r2 := arrLoopF f rem (jsvIteratorNextFA itr)
          (r2.1, r.2.1 ++ r2.2.1, r.2.2 + r2.2.2)
        else r
      else (true, [], 0)

/-- The walker's array-buffer general loop
(`while (jsvArrayBufferIteratorHasElement(&it))`), emitting
`(int)jsvArrayBufferIteratorGetIntegerValue`.  Fuel `byteLength + 1` covers
the loop for the collaborator's tags (width at least 1). -/
def abufEmitsF : Nat → JsvArrayBufferIterator → List Int
  | 0, _ => []
  | n + 1, itA =>
      if jsvArrayBufferIteratorHasElement itA then
        let r := jsvArrayBufferIteratorGetIntegerValue itA
        toInt32 r.1 :: abufEmitsF n (jsvArrayBufferIteratorNext r.2)
      else []

/-- `jsvIterateCallback` as an emission trace, fuel-bounded.  The dispatch
follows the C chain of kind tests (`none` models a null value reaching the
walker, e.g. a hole of a sparse array, for which every kind test fails). -/
def jsvIterateCallbackF : Nat → Option JsVal → Bool × List Int × Nat
  | 0, _ => (false, [], 0)
  | fuel + 1, ov =>
      match ov with
      | none => (false, [], 1)
      | some (.num n) => (true, [toInt32 n], 0)
      | some (.obj hasCB cbIsFn cbResult countProp dataProp) =>
          if hasCB && cbIsFn then
            match cbResult with
            | some r => jsvIterateCallbackF fuel (some r)
            | none => (true, [], 0)
          else
            match countProp, dataProp with
            | some c, some d =>
                if isNumericV c then
                  iterRepeat (fun _ => jsvIterateCallbackF fuel (some d))
                    (toInt32 (jsvGetIntegerV c)).toNat
                else (false, [], 1)
            | _, _ => (false, [], 1)
      | some (.str chain) =>
          (true,
           (readChars (chainLen chain) (jsvStringIteratorNew chain 0)).map
             (fun b => (b : Int)), 0)
      | some (.abuf view) =>
          let itA := jsvArrayBufferIteratorNew view 0
          if sizeOfTag itA.type = 1 && !signedTag itA.type then
            (true, ((readRun view.length itA.it).1).map (fun b => (b : Int)), 0)
          else (true, abufEmitsF (itA.byteLength + 1) itA, 0)
      | some (.arr len cs) =>
          arrLoopF (fun el => jsvIterateCallbackF fuel el) len
            (jsvIteratorNewFullArray ⟨len, cs⟩)
      | some .other => (false, [], 1)

mutual

/-- Structural size of a value, used as walker fuel (every recursive call of
the walker is on a strictly smaller value, so this fuel is always
sufficient). -/
def jsValFuel : JsVal → Nat
  | .num _ => 1
  | .str _ => 1
  | .abuf _ => 1
  | .other => 1
  | .obj _ _ r c d => 1 + jsOptFuel r + jsOptFuel c + jsOptFuel d
  | .arr _ cs => 1 + jsListFuel cs

/-- Fuel of an optional value. -/
def jsOptFuel : Option JsVal → Nat
  | none => 1
  | some v => 1 + jsValFuel v

/-- Fuel of a child list. -/
def jsListFuel : List (Nat × JsVal) → Nat
  | [] => 1
  | p :: rest => 1 + jsValFuel p.2 + jsListFuel rest

end

/-- The walker's emission trace on a value (with always-sufficient fuel). -/
def jsvIterateCallbackEmits (v : JsVal) : Bool × List Int × Nat :=
  jsvIterateCallbackF (jsOptFuel (some v)) (some v)

/-- `jsvIterateCallback` with an explicit sink: replay the emission trace
into the sink, returning the outcome, the final sink state and the number of
reported type errors. -/
def jsvIterateCallback {σ : Type} (v : JsVal) (callback : Int → σ → σ)
    (st : σ) : Bool × σ × Nat :=
  let r := jsvIterateCallbackEmits v
  (r.1, r.2.1.foldl (fun acc d => callback d acc) st, r.2.2)

/-- `jsvIterateCallbackCountCb`: increment the counter (the C counter is an
`int`, embedded as an unbounded natural). -/
def jsvIterateCallbackCountCb (_n : Int) (count : Nat) : Nat :=
  count + 1

/-- `jsvIterateCallbackCount`. -/
def jsvIterateCallbackCount (v : JsVal) : Nat :=
  (jsvIterateCallback v jsvIterateCallbackCountCb 0).2.1

/-- The state of the to-bytes sink (`buf` is the caller's buffer; the C
`idx` is an `unsigned int`, embedded as an unbounded natural). -/
structure JsvIterateCallbackToBytesData where
  buf : List Nat
  idx : Nat
  length : Nat
  deriving DecidableEq, Repr

/-- `jsvIterateCallbackToBytesCb`: store the low byte while `idx < length`,
and always count. -/
def jsvIterateCallbackToBytesCb (d : Int)
    (cbData : JsvIterateCallbackToBytesData) : JsvIterateCallbackToBytesData :=
  { buf :=
      if cbData.idx < cbData.length then
        cbData.buf.set cbData.idx (d.emod 256).toNat
      else cbData.buf,
    idx := cbData.idx + 1, length := cbData.length }

/-- `jsvIterateCallbackToBytes`: returns the final `idx` (the total emission
count) and the buffer. -/
def jsvIterateCallbackToBytes (v : JsVal) (buf : List Nat) (dataSize : Nat) :
    Nat × List Nat :=
  let r := jsvIterateCallback v jsvIterateCallbackToBytesCb
    ⟨buf, 0, dataSize⟩
  (r.2.1.idx, r.2.1.buf)

/-! ## Verification-side notions -/

/-- The part of a cell the well-formedness predicate depends on: capacity,
used length, byte bound, emptiness. -/
def cellKey (c : Cell) : Nat × Nat × Bool × Bool :=
  (c.cap, c.data.length, c.data.all (fun b => b < 256), c.data.isEmpty)

/-- A string cursor sits at the tail of the chain `init ++ [tl]`, in the
state `goto-end` establishes and `append` maintains: on the tail cell, at its
last byte (at byte 0 when the tail is empty — in `Nat` both are
`tl.data.length - 1`). -/
def AtTail (it : JsvStringIterator) (init : List Cell) (tl : Cell) : Prop :=
  it.prev = init ∧ it.var = [tl] ∧ it.charsInVar = tl.data.length ∧
  it.charIdx = tl.data.length - 1 ∧ it.varIndex = (chainBytes init).length

/-- `IterRep s it q`: the cursor `it` is a canonical cursor over the chain `s` at
absolute byte position `q` — either inside a cell with `charIdx` strictly
below the cell's used length, or in the logical-end state at position
`chainLen s` with the whole chain in `prev`. -/
inductive IterRep (s : List Cell) : JsvStringIterator → Nat → Prop
  | inCell (pre : List Cell) (cur : Cell) (post : List Cell) (charIdx : Nat)
      (hs : s = pre ++ cur :: post)
      (hlt : charIdx < cur.data.length) :
      IterRep s
        { prev := pre, var := cur :: post, charIdx := charIdx,
          charsInVar := cur.data.length,
          varIndex := (chainBytes pre).length }
        ((chainBytes pre).length + charIdx)
  | atEnd (it : JsvStringIterator)
      (hvar : it.var = []) (hprev : it.prev = s) (hciv : it.charsInVar = 0) :
      IterRep s it (chainLen s)

/-! ## Basic chain lemmas -/

@[simp]
theorem chainBytes_nil : chainBytes [] = [] := rfl

@[simp]
theorem chainBytes_cons (c : Cell) (s : List Cell) :
    chainBytes (c :: s) = c.data ++ chainBytes s := rfl

@[simp]
theorem chainBytes_append (a b : List Cell) :
    chainBytes (a ++ b) = chainBytes a ++ chainBytes b := by
  induction a with
  | nil => simp
  | cons c a ih => simp [ih]

theorem set_append_add {α : Type} (a b : List α) (i : Nat) (x : α) :
    (a ++ b).set (a.length + i) x = a ++ b.set i x := by
  induction a with
  | nil => simp
  | cons c a ih => simp [Nat.succ_add, ih]

theorem chainWFb_cons_ne (c : Cell) (l : List Cell) (h : l ≠ []) :
    chainWFb (c :: l) =
      (decide (0 < c.cap) && decide (c.data.length = c.cap) &&
        c.data.all (fun b => b < 256) &&
        !(l.headD ⟨1, [0]⟩).data.isEmpty && chainWFb l) := by
  cases l with
  | nil => exact absurd rfl h
  | cons c2 rest => rfl

theorem chainWFb_suffix (c c2 : Cell) (rest : List Cell)
    (h : chainWFb (c :: c2 :: rest) = true) : chainWFb (c2 :: rest) = true := by
  simp only [chainWFb, Bool.and_eq_true] at h
  exact h.2

theorem chainWFb_head_full (c c2 : Cell) (rest : List Cell)
    (h : chainWFb (c :: c2 :: rest) = true) :
    c.data.length = c.cap ∧ 0 < c.cap := by
  simp only [chainWFb, Bool.and_eq_true, decide_eq_true_eq] at h
  exact ⟨h.1.1.1.2, h.1.1.1.1⟩

theorem chainWFb_tail_ne (c : Cell) (l : List Cell)
    (h : chainWFb (c :: l) = true) : ∀ d ∈ l, d.data ≠ [] := by
  induction l generalizing c with
  | nil => intro d hd; cases hd
  | cons c2 rest ih =>
      intro d hd
      simp only [chainWFb, Bool.and_eq_true] at h
      rw [List.mem_cons] at hd
      rcases hd with hd | hd
      · subst hd
        simpa using h.1.2
      · exact ih c2 h.2 d hd

theorem chainWFb_cell_bounds (s : List Cell) (h : chainWFb s = true) :
    ∀ c ∈ s, c.data.length ≤ c.cap ∧ 0 < c.cap ∧ ∀ b ∈ c.data, b < 256 := by
  induction s with
  | nil => intro c hc; cases hc
  | cons c0 rest ih =>
      intro c hc
      rw [List.mem_cons] at hc
      cases rest with
      | nil =>
          rcases hc with hc | hc
          · subst hc
            simp only [chainWFb, Bool.and_eq_true, decide_eq_true_eq,
              List.all_eq_true] at h
            exact ⟨h.1.2, h.1.1, fun b hb => by simpa using h.2 b hb⟩
          · simp at hc
      | cons c2 rest2 =>
          rcases hc with hc | hc
          · subst hc
            simp only [chainWFb, Bool.and_eq_true, decide_eq_true_eq,
              List.all_eq_true] at h
            refine ⟨le_of_eq h.1.1.1.2, h.1.1.1.1, fun b hb => ?_⟩
            simpa using h.1.1.2 b hb
          · exact ih (chainWFb_suffix _ _ _ h) c hc

theorem chainWFb_inner_ne (s pre post : List Cell) (cur d : Cell)
    (h : chainWFb s = true) (hs : s = pre ++ cur :: d :: post) :
    d.data ≠ [] := by
  cases pre with
  | nil =>
      subst hs
      exact chainWFb_tail_ne cur (d :: post) h d (by simp)
  | cons p pre' =>
      subst hs
      exact chainWFb_tail_ne p (pre' ++ cur :: d :: post) h d (by simp)

theorem chainWFb_empty_cell (s pre post : List Cell) (cur : Cell)
    (h : chainWFb s = true) (hs : s = pre ++ cur :: post)
    (hemp : cur.data = []) : pre = [] ∧ post = [] := by
  constructor
  · cases pre with
    | nil => rfl
    | cons p pre' =>
        subst hs
        exact absurd hemp
          (chainWFb_tail_ne p (pre' ++ cur :: post) h cur (by simp))
  · cases post with
    | nil => rfl
    | cons d post' =>
        exfalso
        cases pre with
        | nil =>
            subst hs
            have := chainWFb_head_full cur d post' h
            rw [hemp] at this
            simp at this
            omega
        | cons p pre' =>
            subst hs
            exact absurd hemp
              (chainWFb_tail_ne p (pre' ++ cur :: d :: post') h cur (by simp))

theorem chainWFb_eq_of_keys (s s2 : List Cell)
    (h : s.map cellKey = s2.map cellKey) : chainWFb s = chainWFb s2 := by
  induction s generalizing s2 with
  | nil => cases s2 with
      | nil => rfl
      | cons c2 rest2 => simp at h
  | cons c rest ih =>
      cases s2 with
      | nil => simp at h
      | cons c2 rest2 =>
          simp only [List.map_cons, List.cons.injEq, cellKey, Prod.mk.injEq] at h
          obtain ⟨⟨hcap, hlen, hall, hemp⟩, htail⟩ := h
          cases rest with
          | nil =>
              cases rest2 with
              | nil => simp [chainWFb, hcap, hlen, hall]
              | cons d2 r2 => simp at htail
          | cons d r =>
              cases rest2 with
              | nil => simp at htail
              | cons d2 r2 =>
                  have hd2 : d.data.isEmpty = d2.data.isEmpty := by
                    simp only [List.map_cons, List.cons.injEq, cellKey,
                      Prod.mk.injEq] at htail
                    exact htail.1.2.2.2
                  have := ih (d2 :: r2) htail
                  simp only [chainWFb, hcap, hlen, hall, hd2, this]

/-! ## String-cursor correctness: the `IterRep` machinery -/

theorem take_set_succ {α : Type} (l : List α) (q : Nat) (b : α)
    (h : q < l.length) : (l.set q b).take (q + 1) = l.take q ++ [b] := by
  rw [List.set_eq_take_cons_drop b h]
  have hlen : (l.take q).length = q := by
    rw [List.length_take]; omega
  calc (l.take q ++ b :: l.drop (q + 1)).take (q + 1)
      = (l.take q ++ b :: l.drop (q + 1)).take ((l.take q).length + 1) := by
        rw [hlen]
    _ = l.take q ++ (b :: l.drop (q + 1)).take 1 := List.take_append ..
    _ = l.take q ++ [b] := by simp

theorem IterRep.pos_le {s : List Cell} {it : JsvStringIterator} {q : Nat}
    (h : IterRep s it q) : q ≤ chainLen s := by
  cases h with
  | inCell pre cur post ci hs hlt =>
      subst hs
      simp only [chainLen, chainBytes_append, chainBytes_cons,
        List.length_append]
      omega
  | atEnd it hv hp hc => exact le_refl _

theorem IterRep.hasChar_eq {s : List Cell} {it : JsvStringIterator} {q : Nat}
    (h : IterRep s it q) :
    jsvStringIteratorHasChar it = decide (q < chainLen s) := by
  cases h with
  | inCell pre cur post ci hs hlt =>
      subst hs
      have hlt2 : (chainBytes pre).length + ci < chainLen (pre ++ cur :: post) := by
        simp only [chainLen, chainBytes_append, chainBytes_cons,
          List.length_append, List.length_cons]
        omega
      simp [jsvStringIteratorHasChar, hlt, hlt2]
  | atEnd it hv hp hc =>
      simp [jsvStringIteratorHasChar, hv]

theorem IterRep.getChar_eq {s : List Cell} {it : JsvStringIterator} {q : Nat}
    (h : IterRep s it q) (hq : q < chainLen s) :
    jsvStringIteratorGetChar it = (chainBytes s).getD q 0 := by
  cases h with
  | inCell pre cur post ci hs hlt =>
      subst hs
      simp only [jsvStringIteratorGetChar, chainBytes_append, chainBytes_cons]
      rw [List.getD_append_right _ _ _ _ (by omega),
        Nat.add_sub_cancel_left, List.getD_append _ _ _ _ hlt]
  | atEnd it hv hp hc => omega

theorem IterRep.next {s : List Cell} {it : JsvStringIterator} {q : Nat}
    (hwf : chainWFb s = true) (h : IterRep s it q) (hq : q < chainLen s) :
    IterRep s (jsvStringIteratorNext it) (q + 1) := by
  cases h with
  | atEnd it hv hp hc => omega
  | inCell pre cur post ci hs hlt =>
      simp only [jsvStringIteratorNext, jsvStringIteratorNextInline]
      by_cases hcond : ci + 1 ≥ cur.data.length
      · have hci : ci + 1 = cur.data.length := by omega
        cases post with
        | nil =>
            simp only [hcond, if_pos, ge_iff_le]
            have hres : IterRep s
                { prev := pre ++ [cur], var := [], charIdx := 0,
                  charsInVar := 0,
                  varIndex := (chainBytes pre).length + cur.data.length }
                (chainLen s) :=
              IterRep.atEnd _ rfl (by rw [hs]) rfl
            have hls : chainLen s = (chainBytes pre).length + ci + 1 := by
              rw [hs]
              simp only [chainLen, chainBytes_append, chainBytes_cons,
                chainBytes_nil, List.length_append, List.length_nil]
              omega
            rw [hls] at hres
            simpa using hres
        | cons d rest =>
            simp only [hcond, if_pos, ge_iff_le]
            have hsd : s = (pre ++ [cur]) ++ d :: rest := by
              rw [hs]; simp
            have hne : d.data ≠ [] :=
              chainWFb_inner_ne s pre rest cur d hwf hs
            have h0 : 0 < d.data.length := List.length_pos.mpr hne
            have hres := IterRep.inCell (s := s) (pre ++ [cur]) d rest 0 hsd h0
            have e1 : (chainBytes (pre ++ [cur])).length =
                (chainBytes pre).length + cur.data.length := by simp
            rw [e1] at hres
            have e2 : (chainBytes pre).length + cur.data.length + 0 =
                (chainBytes pre).length + ci + 1 := by omega
            rw [e2] at hres
            simpa using hres
      · have hlt2 : ci + 1 < cur.data.length := by omega
        simp only [hcond, if_neg, not_false_iff]
        have hres := IterRep.inCell (s := s) pre cur post (ci + 1) hs hlt2
        have e2 : (chainBytes pre).length + (ci + 1) =
            (chainBytes pre).length + ci + 1 := by omega
        rw [e2] at hres
        simpa using hres

theorem newLoop_rep (startIdx : Nat) (s : List Cell)
    (hwf : chainWFb s = true) :
    ∀ cells prev vi q, s = prev ++ cells → vi = (chainBytes prev).length →
      q < chainLen cells →
      IterRep s (jsvStringIteratorNewLoop startIdx prev vi q cells)
        ((chainBytes prev).length + q) := by
  intro cells
  induction cells with
  | nil => intro prev vi q _ _ hq; simp [chainLen] at hq
  | cons cur rest ih =>
      intro prev vi q hs hvi hq
      rw [jsvStringIteratorNewLoop.eq_def]
      dsimp only
      by_cases hcond : q > 0 ∧ q ≥ cur.data.length
      · have hb : (decide (q > 0) && decide (q ≥ cur.data.length)) = true := by
          simp [hcond.1, hcond.2]
        rw [if_pos hb]
        cases rest with
        | nil =>
            exfalso
            simp only [chainLen, chainBytes_cons, chainBytes_nil,
              List.length_append, List.length_nil] at hq
            omega
        | cons d rest2 =>
            have hs2 : s = (prev ++ [cur]) ++ d :: rest2 := by rw [hs]; simp
            have hvi2 : vi + cur.data.length =
                (chainBytes (prev ++ [cur])).length := by simp [hvi]
            have hq2 : q - cur.data.length < chainLen (d :: rest2) := by
              simp only [chainLen, chainBytes_cons, List.length_append] at hq ⊢
              omega
            have hres := ih (prev ++ [cur]) (vi + cur.data.length)
              (q - cur.data.length) hs2 hvi2 hq2
            have e : (chainBytes (prev ++ [cur])).length +
                (q - cur.data.length) = (chainBytes prev).length + q := by
              simp only [chainBytes_append, chainBytes_cons, chainBytes_nil,
                List.append_nil, List.length_append]
              omega
            rw [e] at hres
            exact hres
      · have hb : (decide (q > 0) && decide (q ≥ cur.data.length)) = false := by
          rcases not_and_or.mp hcond with hc | hc <;> simp [hc]
        rw [if_neg (by simp [hb])]
        have hqlt : q < cur.data.length := by
          rcases not_and_or.mp hcond with hc | hc
          · -- q = 0; an empty current cell would force a singleton chain,
            -- contradicting q < chainLen cells
            have hq0 : q = 0 := by omega
            by_contra hge
            have hciv : cur.data.length = 0 := by omega
            have hemp : cur.data = [] := List.length_eq_zero.mp hciv
            obtain ⟨-, hrest⟩ := chainWFb_empty_cell s prev rest cur hwf hs hemp
            subst hrest
            simp only [chainLen, chainBytes_cons, chainBytes_nil,
              List.append_nil] at hq
            omega
          · omega
        subst hvi
        exact IterRep.inCell prev cur rest q hs hqlt

theorem iterRep_new (s : List Cell) (q : Nat) (hwf : chainWFb s = true)
    (hq : q < chainLen s) :
    IterRep s (jsvStringIteratorNew s q) q := by
  have := newLoop_rep q s hwf s [] 0 q (by simp) (by simp) (by simpa [chainLen])
  simpa using this

theorem newLoop_end (startIdx : Nat) (s : List Cell)
    (hwf : chainWFb s = true) :
    ∀ cells prev vi q, s = prev ++ cells → cells ≠ [] →
      chainLen cells ≤ q → 0 < q →
      (jsvStringIteratorNewLoop startIdx prev vi q cells).var = [] ∧
      (jsvStringIteratorNewLoop startIdx prev vi q cells).prev = s ∧
      (jsvStringIteratorNewLoop startIdx prev vi q cells).charsInVar = 0 := by
  intro cells
  induction cells with
  | nil => intro prev vi q _ hne _ _; exact absurd rfl hne
  | cons cur rest ih =>
      intro prev vi q hs _ hq h0
      have hqciv : q ≥ cur.data.length := by
        simp only [chainLen, chainBytes_cons, List.length_append] at hq
        omega
      rw [jsvStringIteratorNewLoop.eq_def]
      dsimp only
      have hb : (decide (q > 0) && decide (q ≥ cur.data.length)) = true := by
        simp [h0, hqciv]
      rw [if_pos hb]
      cases rest with
      | nil => exact ⟨rfl, by rw [hs], rfl⟩
      | cons d rest2 =>
          have hs2 : s = (prev ++ [cur]) ++ d :: rest2 := by rw [hs]; simp
          have hne : d.data ≠ [] := chainWFb_inner_ne s prev rest2 cur d hwf hs
          have hdpos : 0 < d.data.length := List.length_pos.mpr hne
          have hq2 : chainLen (d :: rest2) ≤ q - cur.data.length := by
            simp only [chainLen, chainBytes_cons, List.length_append] at hq ⊢
            omega
          have h02 : 0 < q - cur.data.length := by
            have : 0 < chainLen (d :: rest2) := by
              simp only [chainLen, chainBytes_cons, List.length_append]
              omega
            omega
          exact ih (prev ++ [cur]) (vi + cur.data.length)
            (q - cur.data.length) hs2 (by simp) hq2 h02

theorem iterRep_new_end (s : List Cell) (q : Nat) (hwf : chainWFb s = true)
    (hq : chainLen s ≤ q) (h0 : 0 < q) :
    IterRep s (jsvStringIteratorNew s q) (chainLen s) := by
  cases s with
  | nil => simp [chainWFb] at hwf
  | cons c rest =>
      have := newLoop_end q (c :: rest) hwf (c :: rest) [] 0 q rfl
        (by simp) hq h0
      exact IterRep.atEnd _ this.1 this.2.1 this.2.2

theorem readChars_eq (s : List Cell) (hwf : chainWFb s = true) :
    ∀ fuel q it, IterRep s it q → chainLen s - q ≤ fuel →
      readChars fuel it = (chainBytes s).drop q := by
  intro fuel
  induction fuel with
  | zero =>
      intro q it h hfuel
      have := h.pos_le
      have hq : q = chainLen s := by omega
      simp only [readChars]
      rw [hq]
      simp [chainLen]
  | succ fuel ih =>
      intro q it h hfuel
      simp only [readChars]
      rw [h.hasChar_eq]
      by_cases hq : q < chainLen s
      · rw [if_pos (by simpa)]
        have hnext := IterRep.next hwf h hq
        have hrec := ih (q + 1) _ hnext (by omega)
        rw [hrec, h.getChar_eq hq]
        conv_rhs => rw [List.drop_eq_getElem_cons
          (show q < (chainBytes s).length by simpa [chainLen] using hq)]
        rw [List.getD_eq_getElem _ _ (by simpa [chainLen] using hq)]
      · rw [if_neg (by simpa using hq)]
        have := h.pos_le
        have hq2 : q = chainLen s := by omega
        rw [hq2]
        simp [chainLen]

theorem readRun_eq (s : List Cell) (hwf : chainWFb s = true) :
    ∀ n q it, IterRep s it q → q + n ≤ chainLen s →
      (readRun n it).1 = ((chainBytes s).drop q).take n ∧
      IterRep s (readRun n it).2 (q + n) := by
  intro n
  induction n with
  | zero => intro q it h _; simpa [readRun] using h
  | succ n ih =>
      intro q it h hn
      have hq : q < chainLen s := by omega
      have hnext := IterRep.next hwf h hq
      have hrec := ih (q + 1) _ hnext (by omega)
      simp only [readRun]
      constructor
      · rw [hrec.1, h.getChar_eq hq,
          List.getD_eq_getElem _ _ (by simpa [chainLen] using hq),
          List.drop_eq_getElem_cons
            (show q < (chainBytes s).length by simpa [chainLen] using hq),
          List.take_succ_cons]
      · have : q + (n + 1) = q + 1 + n := by omega
        rw [this]
        exact hrec.2

theorem setChar_rep (s : List Cell) (it : JsvStringIterator) (q b : Nat)
    (hwf : chainWFb s = true) (h : IterRep s it q) (hq : q < chainLen s)
    (hb : b < 256) :
    ∃ s2, IterRep s2 (jsvStringIteratorSetChar it b) q ∧
      chainBytes s2 = (chainBytes s).set q b ∧ chainWFb s2 = true ∧
      chainLen s2 = chainLen s := by
  cases h with
  | atEnd it hv hp hc => omega
  | inCell pre cur post ci hs hlt =>
      refine ⟨pre ++ { cap := cur.cap, data := cur.data.set ci b } :: post,
        ?_, ?_, ?_, ?_⟩
      · have hset : jsvStringIteratorSetChar
            { prev := pre, var := cur :: post, charIdx := ci,
              charsInVar := cur.data.length,
              varIndex := (chainBytes pre).length } b =
            { prev := pre,
              var := { cap := cur.cap, data := cur.data.set ci b } :: post,
              charIdx := ci, charsInVar := cur.data.length,
              varIndex := (chainBytes pre).length } := by
          simp [jsvStringIteratorSetChar, jsvStringIteratorHasChar, hlt]
        rw [hset]
        have hres := IterRep.inCell
          (s := pre ++ { cap := cur.cap, data := cur.data.set ci b } :: post)
          pre { cap := cur.cap, data := cur.data.set ci b } post ci rfl
          (by simpa using hlt)
        simpa using hres
      · rw [hs]
        simp only [chainBytes_append, chainBytes_cons]
        rw [set_append_add, List.set_append_left _ _ hlt]
      · have hcur := chainWFb_cell_bounds s hwf cur (by rw [hs]; simp)
        have h1 : (cur.data.set ci b).all (fun x => x < 256) = true := by
          rw [List.all_eq_true]
          intro x hx
          rcases List.mem_or_eq_of_mem_set hx with hx | hx
          · simpa using hcur.2.2 x hx
          · subst hx; simpa using hb
        have h2 : cur.data.all (fun x => x < 256) = true := by
          rw [List.all_eq_true]
          intro x hx
          simpa using hcur.2.2 x hx
        have hsetEmpty : (cur.data.set ci b).isEmpty = cur.data.isEmpty := by
          cases cur.data <;> cases ci <;> simp [List.set]
        have hkey : cellKey { cap := cur.cap, data := cur.data.set ci b } =
            cellKey cur := by
          simp [cellKey, h1, h2, hsetEmpty]
        apply Eq.trans (chainWFb_eq_of_keys _ s ?_) hwf
        rw [hs]
        simp [hkey]
      · simp only [chainLen]
        rw [hs]
        simp

theorem writeRun_rep :
    ∀ (bs : List Nat) (s : List Cell) (q : Nat) (it : JsvStringIterator),
      chainWFb s = true → IterRep s it q → q + bs.length ≤ chainLen s →
      (∀ b ∈ bs, b < 256) →
      ∃ s2, IterRep s2 (writeRun bs it) (q + bs.length) ∧
        chainBytes s2 =
          (chainBytes s).take q ++ bs ++ (chainBytes s).drop (q + bs.length) ∧
        chainWFb s2 = true ∧ chainLen s2 = chainLen s := by
  intro bs
  induction bs with
  | nil =>
      intro s q it hwf h _ _
      exact ⟨s, by simpa [writeRun] using h, by simp, hwf, rfl⟩
  | cons b bs ih =>
      intro s q it hwf h hlen hbs
      have hq : q < chainLen s := by
        simp only [List.length_cons] at hlen
        omega
      obtain ⟨s1, hrep1, hbytes1, hwf1, hlen1⟩ :=
        setChar_rep s it q b hwf h hq (hbs b (by simp))
      have hq1 : q < chainLen s1 := by omega
      have hnext := IterRep.next hwf1 hrep1 hq1
      obtain ⟨s2, hrep2, hbytes2, hwf2, hlen2⟩ :=
        ih s1 (q + 1) _ hwf1 hnext
          (by simp only [List.length_cons] at hlen; omega)
          (fun x hx => hbs x (by simp [hx]))
      refine ⟨s2, ?_, ?_, hwf2, by omega⟩
      · have : q + (b :: bs).length = q + 1 + bs.length := by simp; omega
        rw [this]
        simpa [writeRun] using hrep2
      · rw [hbytes2, hbytes1]
        have hqlen : q < (chainBytes s).length := by
          simpa [chainLen] using hq
        rw [List.drop_set_of_lt _ _ (by omega), take_set_succ _ _ _ hqlen]
        simp only [List.length_cons]
        have e : q + (bs.length + 1) = q + 1 + bs.length := by omega
        rw [e]
        simp

/-! ## Claim C2 -/

/-- C2, counterexample to the claim as stated: on the empty string (a
well-formed single empty root cell) the start index 0 is at `length(s)`, yet
`jsvStringIteratorNew` leaves the cursor on the root cell — not in the
logical-end state with a null cell reference. -/
theorem c2_counterexample :
    chainWFb [({ cap := 4, data := [] } : Cell)] = true ∧
    chainLen [({ cap := 4, data := [] } : Cell)] ≤ 0 ∧
    ¬(jsvStringIteratorNew [({ cap := 4, data := [] } : Cell)] 0).var = [] :=
  ⟨by decide, by decide, by decide⟩

/-- C2 (amended): for every byte position `p < length(s)` of a well-formed
string `s`, a cursor created at `p` reads exactly the byte suffix `s[p..]`
(reading the current byte and advancing until has-char fails); for
`p ≥ length(s)` has-char is immediately false, and when moreover `p > 0` the
constructor leaves the cursor in the logical-end state (null cell reference,
null byte pointer) — at `p = 0` on an empty string the cursor stays on the
root cell with has-char false. -/
theorem c2_string_cursor_reads_suffix (s : List Cell) (p fuel : Nat)
    (hwf : chainWFb s = true) :
    (p < chainLen s → chainLen s - p ≤ fuel →
      readChars fuel (jsvStringIteratorNew s p) = (chainBytes s).drop p) ∧
    (chainLen s ≤ p →
      jsvStringIteratorHasChar (jsvStringIteratorNew s p) = false ∧
      (0 < p → (jsvStringIteratorNew s p).var = [])) := by
  constructor
  · intro hp hfuel
    exact readChars_eq s hwf fuel p _ (iterRep_new s p hwf hp) hfuel
  · intro hp
    have hvar : 0 < p → (jsvStringIteratorNew s p).var = [] := by
      intro h0
      cases s with
      | nil => simp [chainWFb] at hwf
      | cons c rest =>
          exact (newLoop_end p (c :: rest) hwf (c :: rest) [] 0 p rfl
            (by simp) hp h0).1
    refine ⟨?_, hvar⟩
    by_cases h0 : 0 < p
    · have h := (iterRep_new_end s p hwf hp h0).hasChar_eq
      simpa using h
    · have hp0 : p = 0 := by omega
      have hL : chainLen s = 0 := by omega
      subst hp0
      cases s with
      | nil => simp [chainWFb] at hwf
      | cons c rest =>
          have hc : c.data.length = 0 := by
            simp only [chainLen, chainBytes_cons, List.length_append] at hL
            omega
          rw [jsvStringIteratorNew, jsvStringIteratorNewLoop.eq_def]
          simp [jsvStringIteratorHasChar, hc]

/-- C2, witness: a two-cell chain holding bytes 97..102; the cursor at 3
reads the suffix, and the cursor at 6 (the length) is at logical end. -/
theorem c2_witness :
    chainWFb [(⟨4, [97, 98, 99, 100]⟩ : Cell), ⟨8, [101, 102]⟩] = true ∧
    readChars 3
        (jsvStringIteratorNew [(⟨4, [97, 98, 99, 100]⟩ : Cell), ⟨8, [101, 102]⟩] 3) =
      (chainBytes [(⟨4, [97, 98, 99, 100]⟩ : Cell), ⟨8, [101, 102]⟩]).drop 3 ∧
    jsvStringIteratorHasChar
        (jsvStringIteratorNew [(⟨4, [97, 98, 99, 100]⟩ : Cell), ⟨8, [101, 102]⟩] 6) =
      false ∧
    (jsvStringIteratorNew [(⟨4, [97, 98, 99, 100]⟩ : Cell), ⟨8, [101, 102]⟩] 6).var =
      [] :=
  ⟨by decide,
   (c2_string_cursor_reads_suffix _ 3 3 (by decide)).1 (by decide) (by decide),
   ((c2_string_cursor_reads_suffix _ 6 0 (by decide)).2 (by decide)).1,
   ((c2_string_cursor_reads_suffix _ 6 0 (by decide)).2 (by decide)).2
     (by decide)⟩

/-! ## Claims C3 and C9: append through the cursor -/

theorem headD_append (init l : List Cell) (d : Cell) :
    ((init ++ l).headD d) = if init = [] then l.headD d else init.headD d := by
  cases init with
  | nil => simp
  | cons c init' => simp

theorem chainWFb_append_congr (l l' : List Cell)
    (hne : l ≠ []) (hne' : l' ≠ [])
    (hhead : (l.headD ⟨1, [0]⟩).data.isEmpty = (l'.headD ⟨1, [0]⟩).data.isEmpty ∨
      (l'.headD ⟨1, [0]⟩).data.isEmpty = false)
    (himp : chainWFb l = true → chainWFb l' = true) :
    ∀ init, chainWFb (init ++ l) = true → chainWFb (init ++ l') = true := by
  intro init
  induction init with
  | nil => simpa using himp
  | cons c init' ih =>
      intro h
      have hne2 : init' ++ l ≠ [] := by simp [hne]
      have hne2' : init' ++ l' ≠ [] := by simp [hne']
      rw [List.cons_append, chainWFb_cons_ne c _ hne2, Bool.and_eq_true,
        Bool.and_eq_true] at h
      rw [List.cons_append, chainWFb_cons_ne c _ hne2', Bool.and_eq_true,
        Bool.and_eq_true]
      refine ⟨⟨h.1.1, ?_⟩, ih h.2⟩
      cases init' with
      | cons d init'' => simpa using h.1.2
      | nil =>
          simp only [List.nil_append] at h ⊢
          rcases hhead with hh | hh
          · rw [← hh]; exact h.1.2
          · rw [hh]; rfl

theorem wf_extend_full (init : List Cell) (tl newc : Cell)
    (h : chainWFb (init ++ [tl]) = true) (hfull : tl.data.length = tl.cap)
    (hnewcap : 0 < newc.cap) (hnewlen : newc.data.length ≤ newc.cap)
    (hnewne : newc.data ≠ [])
    (hnewbytes : newc.data.all (fun b => b < 256) = true) :
    chainWFb (init ++ [tl, newc]) = true := by
  refine chainWFb_append_congr [tl] [tl, newc] (by simp) (by simp)
    (Or.inl rfl) ?_ init h
  intro htl
  simp only [chainWFb, Bool.and_eq_true, decide_eq_true_eq] at htl ⊢
  exact ⟨⟨⟨⟨htl.1.1, hfull⟩, htl.2⟩, by simpa using hnewne⟩,
    ⟨⟨hnewcap, hnewlen⟩, hnewbytes⟩⟩

theorem wf_append_grow (init : List Cell) (tl : Cell) (ch : Nat)
    (h : chainWFb (init ++ [tl]) = true) (hlt : tl.data.length < tl.cap)
    (hch : ch < 256) :
    chainWFb (init ++ [{ cap := tl.cap, data := tl.data ++ [ch] }]) = true := by
  refine chainWFb_append_congr [tl] [{ cap := tl.cap, data := tl.data ++ [ch] }]
    (by simp) (by simp) (Or.inr (by simp)) ?_ init h
  intro htl
  simp only [chainWFb, Bool.and_eq_true, decide_eq_true_eq, List.all_eq_true] at htl ⊢
  refine ⟨⟨by omega, by simp; omega⟩, fun b hb => ?_⟩
  rw [List.mem_append] at hb
  rcases hb with hb | hb
  · exact htl.2 b hb
  · simp only [List.mem_singleton] at hb
    subst hb
    simpa using hch

theorem atTail_itChain (it : JsvStringIterator) (init : List Cell) (tl : Cell)
    (hat : AtTail it init tl) : itChain it = init ++ [tl] := by
  obtain ⟨hp, hv, -, -, -⟩ := hat
  simp [itChain, hp, hv]

theorem new_zero (s : List Cell) (hne : s ≠ []) :
    jsvStringIteratorNew s 0 =
      { prev := [], var := s, charIdx := 0,
        charsInVar := (s.headD ⟨1, [0]⟩).data.length, varIndex := 0 } := by
  cases s with
  | nil => exact absurd rfl hne
  | cons c rest =>
      rw [jsvStringIteratorNew, jsvStringIteratorNewLoop.eq_def]
      simp

theorem gotoEndWalk_spec :
    ∀ (init2 : List Cell) (tl : Cell) (prev : List Cell) (vi : Nat),
      gotoEndWalk prev vi (((init2 ++ [tl]).headD ⟨1, [0]⟩).data.length)
          (init2 ++ [tl]) =
        (prev ++ init2, [tl], vi + (chainBytes init2).length,
          tl.data.length) := by
  intro init2
  induction init2 with
  | nil => intro tl prev vi; simp [gotoEndWalk]
  | cons c init2' ih =>
      intro tl prev vi
      have hne : init2' ++ [tl] ≠ [] := by simp
      cases hsplit : init2' ++ [tl] with
      | nil => exact absurd hsplit hne
      | cons d ds =>
          simp only [List.cons_append, List.headD_cons, hsplit, gotoEndWalk]
          have := ih tl (prev ++ [c]) (vi + c.data.length)
          rw [hsplit] at this
          simp only [List.headD_cons] at this
          have e1 : prev ++ [c] ++ init2' = prev ++ c :: init2' := by simp
          have e2 : vi + c.data.length + (chainBytes init2').length =
              vi + (chainBytes (c :: init2')).length := by
            simp only [chainBytes_cons, List.length_append]
            omega
          rw [this, e1, e2]

theorem gotoEnd_new_atTail (init : List Cell) (tl : Cell) :
    AtTail (jsvStringIteratorGotoEnd (jsvStringIteratorNew (init ++ [tl]) 0))
      init tl := by
  rw [new_zero (init ++ [tl]) (by simp)]
  cases hsplit : init ++ [tl] with
  | nil => simp at hsplit
  | cons c rest =>
      simp only [jsvStringIteratorGotoEnd]
      have hw := gotoEndWalk_spec init tl [] 0
      rw [hsplit] at hw
      rw [hw]
      exact ⟨by simp, rfl, rfl, rfl, by simp⟩

theorem atTail_state_eq (it : JsvStringIterator) (init : List Cell)
    (tl : Cell) (hat : AtTail it init tl) :
    it = { prev := init, var := [tl], charIdx := tl.data.length - 1,
           charsInVar := tl.data.length,
           varIndex := (chainBytes init).length } := by
  obtain ⟨hp, hv, hciv, hci, hvi⟩ := hat
  cases it
  simp only at hp hv hciv hci hvi
  simp [hp, hv, hciv, hci, hvi]

theorem append_on_atTail_state (init : List Cell) (tl : Cell)
    (extCap ch : Nat) (allocOK : Bool) :
    jsvStringIteratorAppend extCap allocOK ch
      { prev := init, var := [tl], charIdx := tl.data.length - 1,
        charsInVar := tl.data.length,
        varIndex := (chainBytes init).length } =
    (if tl.cap ≤ tl.data.length then
      (if allocOK then
        { prev := init ++ [tl], var := [{ cap := extCap, data := [ch] }],
          charIdx := 0, charsInVar := 1,
          varIndex := (chainBytes init).length + tl.data.length }
       else
        { prev := init ++ [tl], var := [], charIdx := 0,
          charsInVar := tl.data.length,
          varIndex := (chainBytes init).length })
     else
      { prev := init,
        var := [{ cap := tl.cap, data := tl.data ++ [ch] }],
        charIdx := tl.data.length, charsInVar := tl.data.length + 1,
        varIndex := (chainBytes init).length }) := by
  simp only [jsvStringIteratorAppend]
  have hidx : (if tl.data.length > 0 then tl.data.length - 1 + 1
      else tl.data.length - 1) = tl.data.length := by
    split <;> omega
  rw [hidx]
  by_cases hge : tl.cap ≤ tl.data.length
  · rw [if_pos (by omega), if_pos hge]
  · rw [if_neg (by omega), if_neg hge, List.take_length]

theorem append_atTail (init : List Cell) (tl : Cell) (it : JsvStringIterator)
    (extCap ch : Nat) (hat : AtTail it init tl)
    (hwf : chainWFb (init ++ [tl]) = true) (hcap : 0 < extCap)
    (hch : ch < 256) :
    ∃ init2 tl2,
      AtTail (jsvStringIteratorAppend extCap true ch it) init2 tl2 ∧
      init2 ++ [tl2] =
        (if tl.data.length = tl.cap
          then init ++ [tl, { cap := extCap, data := [ch] }]
          else init ++ [{ cap := tl.cap, data := tl.data ++ [ch] }]) ∧
      chainWFb (init2 ++ [tl2]) = true ∧
      chainBytes (init2 ++ [tl2]) = chainBytes (init ++ [tl]) ++ [ch] ∧
      (jsvStringIteratorAppend extCap true ch it).charIdx =
        (if tl.data.length = tl.cap then 0 else tl.data.length) := by
  have hle : tl.data.length ≤ tl.cap :=
    (chainWFb_cell_bounds _ hwf tl (by simp)).1
  rw [atTail_state_eq it init tl hat, append_on_atTail_state]
  by_cases hfull : tl.data.length = tl.cap
  · rw [if_pos (by omega), if_pos rfl, if_pos hfull, if_pos hfull]
    refine ⟨init ++ [tl], { cap := extCap, data := [ch] }, ?_, by simp, ?_, by simp, rfl⟩
    · exact ⟨rfl, rfl, rfl, rfl, by simp⟩
    · have := wf_extend_full init tl { cap := extCap, data := [ch] } hwf hfull
        hcap (by simpa using hcap) (by simp) (by simp [hch])
      simpa using this
  · rw [if_neg (by omega), if_neg hfull, if_neg hfull]
    refine ⟨init, { cap := tl.cap, data := tl.data ++ [ch] }, ?_, rfl, ?_, by simp, rfl⟩
    · exact ⟨rfl, rfl, by simp, by simp, rfl⟩
    · exact wf_append_grow init tl ch hwf (by omega) hch

theorem appendMany_atTail :
    ∀ (bs : List Nat) (init : List Cell) (tl : Cell) (it : JsvStringIterator)
      (extCap : Nat), AtTail it init tl → chainWFb (init ++ [tl]) = true →
      0 < extCap → (∀ b ∈ bs, b < 256) →
      ∃ init2 tl2, AtTail (appendMany extCap bs it) init2 tl2 ∧
        chainWFb (init2 ++ [tl2]) = true ∧
        chainBytes (init2 ++ [tl2]) = chainBytes (init ++ [tl]) ++ bs := by
  intro bs
  induction bs with
  | nil =>
      intro init tl it extCap hat hwf _ _
      exact ⟨init, tl, by simpa [appendMany] using hat, hwf, by simp⟩
  | cons b bs ih =>
      intro init tl it extCap hat hwf hcap hbs
      obtain ⟨init1, tl1, hat1, -, hwf1, hbytes1, -⟩ :=
        append_atTail init tl it extCap b hat hwf hcap (hbs b (by simp))
      obtain ⟨init2, tl2, hat2, hwf2, hbytes2⟩ :=
        ih init1 tl1 _ extCap hat1 hwf1 hcap (fun x hx => hbs x (by simp [hx]))
      refine ⟨init2, tl2, ?_, hwf2, ?_⟩
      · simpa [appendMany] using hat2
      · rw [hbytes2, hbytes1]
        simp

theorem chainWFb_bytes_lt (s : List Cell) (hwf : chainWFb s = true) :
    ∀ b ∈ chainBytes s, b < 256 := by
  intro b hb
  simp only [chainBytes, List.mem_flatten, List.mem_map] at hb
  obtain ⟨l, ⟨c, hc, hl⟩, hbl⟩ := hb
  subst hl
  exact (chainWFb_cell_bounds s hwf c hc).2.2 b hbl

theorem appendStringLoop_eq (extCap : Nat) :
    ∀ (fuel : Nat) (sit it : JsvStringIterator),
      appendStringLoop extCap fuel sit it =
        appendMany extCap (readChars fuel sit) it := by
  intro fuel
  induction fuel with
  | zero => intro sit it; rfl
  | succ fuel ih =>
      intro sit it
      simp only [appendStringLoop, readChars]
      by_cases hc : jsvStringIteratorHasChar sit
      · rw [if_pos hc, if_pos hc, ih]
        rfl
      · rw [if_neg hc, if_neg hc]
        rfl

/-- C3: positioning a string-chain cursor at the tail (goto-end on a fresh
cursor) and appending `k` bytes through it with allocation succeeding grows
the chain's byte sequence by exactly those `k` bytes — so the logical length
grows by `k` and every previously stored byte is unchanged — and a single
append allocates a new extension cell, attached via the last-child reference
with the cursor's byte index reset to 0, exactly when the tail cell is full;
`jsvStringIteratorAppendString` is the same loop fed with the source cursor's
bytes. -/
theorem c3_append_grows (init : List Cell) (tl : Cell) (extCap ch : Nat)
    (bs : List Nat) (src : List Cell) (p : Nat)
    (hwf : chainWFb (init ++ [tl]) = true) (hcap : 0 < extCap)
    (hch : ch < 256) (hbs : ∀ b ∈ bs, b < 256)
    (hwfs : chainWFb src = true) (hp : p < chainLen src) :
    (chainBytes (itChain (appendMany extCap bs
        (jsvStringIteratorGotoEnd (jsvStringIteratorNew (init ++ [tl]) 0)))) =
      chainBytes (init ++ [tl]) ++ bs) ∧
    (chainLen (itChain (appendMany extCap bs
        (jsvStringIteratorGotoEnd (jsvStringIteratorNew (init ++ [tl]) 0)))) =
      chainLen (init ++ [tl]) + bs.length) ∧
    (itChain (jsvStringIteratorAppend extCap true ch
        (jsvStringIteratorGotoEnd (jsvStringIteratorNew (init ++ [tl]) 0))) =
      (if tl.data.length = tl.cap
        then init ++ [tl, { cap := extCap, data := [ch] }]
        else init ++ [{ cap := tl.cap, data := tl.data ++ [ch] }])) ∧
    ((jsvStringIteratorAppend extCap true ch
        (jsvStringIteratorGotoEnd (jsvStringIteratorNew (init ++ [tl]) 0))).charIdx =
      (if tl.data.length = tl.cap then 0 else tl.data.length)) ∧
    ((itChain (jsvStringIteratorAppend extCap true ch
        (jsvStringIteratorGotoEnd (jsvStringIteratorNew (init ++ [tl]) 0)))).length =
      (init ++ [tl]).length + (if tl.data.length = tl.cap then 1 else 0)) ∧
    (chainBytes (itChain (jsvStringIteratorAppendString extCap
        (jsvStringIteratorGotoEnd (jsvStringIteratorNew (init ++ [tl]) 0)) src p)) =
      chainBytes (init ++ [tl]) ++ (chainBytes src).drop p) := by
  have hat := gotoEnd_new_atTail init tl
  obtain ⟨init2, tl2, hat2, hwf2, hbytes2⟩ :=
    appendMany_atTail bs init tl _ extCap hat hwf hcap hbs
  obtain ⟨init1, tl1, hat1, hchain1, hwf1, hbytes1, hidx1⟩ :=
    append_atTail init tl _ extCap ch hat hwf hcap hch
  refine ⟨?_, ?_, ?_, hidx1, ?_, ?_⟩
  · rw [atTail_itChain _ _ _ hat2, hbytes2]
  · rw [atTail_itChain _ _ _ hat2]
    simp only [chainLen, hbytes2, List.length_append]
  · rw [atTail_itChain _ _ _ hat1, hchain1]
  · rw [atTail_itChain _ _ _ hat1, hchain1]
    by_cases hfull : tl.data.length = tl.cap <;> simp [hfull]
  · rw [jsvStringIteratorAppendString, appendStringLoop_eq]
    have hdrop : readChars (chainLen src) (jsvStringIteratorNew src p) =
        (chainBytes src).drop p :=
      readChars_eq src hwfs (chainLen src) p _ (iterRep_new src p hwfs hp)
        (by omega)
    rw [hdrop]
    obtain ⟨init3, tl3, hat3, hwf3, hbytes3⟩ :=
      appendMany_atTail ((chainBytes src).drop p) init tl _ extCap hat hwf hcap
        (fun b hb => chainWFb_bytes_lt src hwfs b (List.mem_of_mem_drop hb))
    rw [atTail_itChain _ _ _ hat3, hbytes3]

/-- C3, witness: appending three bytes to a full single-cell chain `[7,8]`
(capacity 2): the first append allocates an extension cell of capacity 4. -/
theorem c3_witness :
    chainWFb [(⟨2, [7, 8]⟩ : Cell)] = true ∧
    chainBytes (itChain (appendMany 4 [1, 2, 3]
        (jsvStringIteratorGotoEnd (jsvStringIteratorNew [(⟨2, [7, 8]⟩ : Cell)] 0)))) =
      [7, 8, 1, 2, 3] ∧
    itChain (jsvStringIteratorAppend 4 true 1
        (jsvStringIteratorGotoEnd (jsvStringIteratorNew [(⟨2, [7, 8]⟩ : Cell)] 0))) =
      [⟨2, [7, 8]⟩, ⟨4, [1]⟩] ∧
    (jsvStringIteratorAppend 4 true 1
        (jsvStringIteratorGotoEnd (jsvStringIteratorNew [(⟨2, [7, 8]⟩ : Cell)] 0))).charIdx =
      0 :=
  ⟨by decide,
   ((c3_append_grows [] ⟨2, [7, 8]⟩ 4 1 [1, 2, 3] [⟨1, [0]⟩] 0 (by decide)
      (by decide) (by decide) (by decide) (by decide) (by decide)).1).trans
     (by decide),
   ((c3_append_grows [] ⟨2, [7, 8]⟩ 4 1 [1, 2, 3] [⟨1, [0]⟩] 0 (by decide)
      (by decide) (by decide) (by decide) (by decide) (by decide)).2.2.1).trans
     (by decide),
   ((c3_append_grows [] ⟨2, [7, 8]⟩ 4 1 [1, 2, 3] [⟨1, [0]⟩] 0 (by decide)
      (by decide) (by decide) (by decide) (by decide) (by decide)).2.2.2.1).trans
     (by decide)⟩

/-- C9: when the extension-cell allocation fails during an append at a full
tail cell, the cursor transitions to the logical-end state (null cell
reference, hence null pointer) without disturbing the chain, and every
subsequent append or set-char through that cursor is a no-op leaving the
chain's bytes (and hence its logical length) unchanged. -/
theorem c9_oom_append (init : List Cell) (tl : Cell) (it : JsvStringIterator)
    (extCap extCap2 ch ch2 : Nat) (b2 : Bool) (hat : AtTail it init tl)
    (hfull : tl.cap ≤ tl.data.length) :
    ((jsvStringIteratorAppend extCap false ch it).var = []) ∧
    (itChain (jsvStringIteratorAppend extCap false ch it) = init ++ [tl]) ∧
    (jsvStringIteratorAppend extCap2 b2 ch2
        (jsvStringIteratorAppend extCap false ch it) =
      jsvStringIteratorAppend extCap false ch it) ∧
    (jsvStringIteratorSetChar (jsvStringIteratorAppend extCap false ch it) ch2 =
      jsvStringIteratorAppend extCap false ch it) ∧
    (chainBytes (itChain (jsvStringIteratorAppend extCap false ch it)) =
      chainBytes (init ++ [tl])) := by
  rw [atTail_state_eq it init tl hat, append_on_atTail_state, if_pos hfull,
    if_neg (by simp)]
  refine ⟨rfl, by simp [itChain], ?_, ?_, by simp [itChain]⟩
  · simp [jsvStringIteratorAppend]
  · simp [jsvStringIteratorSetChar, jsvStringIteratorHasChar]

/-- C9, witness: a full single-cell chain `[7,8]` with a failing allocation;
the cursor detaches and later writes are no-ops. -/
theorem c9_witness :
    AtTail { prev := [], var := [(⟨2, [7, 8]⟩ : Cell)], charIdx := 1,
             charsInVar := 2, varIndex := 0 } [] ⟨2, [7, 8]⟩ ∧
    ((jsvStringIteratorAppend 4 false 9
        { prev := [], var := [(⟨2, [7, 8]⟩ : Cell)], charIdx := 1,
          charsInVar := 2, varIndex := 0 }).var = [] ∧
     chainBytes (itChain (jsvStringIteratorAppend 4 false 9
        { prev := [], var := [(⟨2, [7, 8]⟩ : Cell)], charIdx := 1,
          charsInVar := 2, varIndex := 0 })) = [7, 8]) :=
  ⟨⟨rfl, rfl, rfl, rfl, rfl⟩,
   (c9_oom_append [] ⟨2, [7, 8]⟩ _ 4 4 9 9 true
      ⟨rfl, rfl, rfl, rfl, rfl⟩ (by decide)).1,
   ((c9_oom_append [] ⟨2, [7, 8]⟩ _ 4 4 9 9 true
      ⟨rfl, rfl, rfl, rfl, rfl⟩ (by decide)).2.2.2.2).trans (by decide)⟩

/-! ## Claim C8: has-element and the undefined state -/

/-- C8, counterexample to the claim as stated: a cursor constructed past the
end of a one-element byte view is in the undefined state with has-element
false, but `next` is not a no-op — it still increments the logical index. -/
theorem c8_counterexample :
    (jsvArrayBufferIteratorNew
        ⟨⟨1, false, false, false⟩, 1, 0, [⟨4, [5]⟩]⟩ 1).type = none ∧
    jsvArrayBufferIteratorHasElement (jsvArrayBufferIteratorNew
        ⟨⟨1, false, false, false⟩, 1, 0, [⟨4, [5]⟩]⟩ 1) = false ∧
    ¬(jsvArrayBufferIteratorNext (jsvArrayBufferIteratorNew
        ⟨⟨1, false, false, false⟩, 1, 0, [⟨4, [5]⟩]⟩ 1) =
      jsvArrayBufferIteratorNew
        ⟨⟨1, false, false, false⟩, 1, 0, [⟨4, [5]⟩]⟩ 1) := by
  refine ⟨by decide, by decide, by decide⟩

/-- C8 (amended): for a typed-view cursor whose tag is defined, has-element
holds iff `byteOffset + width ≤ byteEnd` or `hasAccessedElement` is set; and
a cursor constructed at an index at or past the view's length (with the
element width not exceeding `byteEnd + 1`, excluding the `size_t`-wrap
corner) enters the undefined state, in which has-element is false, the
get/set operations are no-ops on the cursor, and `next` only increments the
logical index (the undefined tag has width 0, so the byte offset and the
embedded cursor stay put). -/
theorem c8_has_element_and_undefined (it : JsvArrayBufferIterator)
    (t : ABType) (view : ABView) (index : Nat) (v : Int)
    (hm : it.type = some t) (hpast : view.length ≤ index)
    (hw : 1 ≤ view.type.width)
    (hwle : view.type.width ≤ view.length * view.type.width + view.byteOffset + 1) :
    (jsvArrayBufferIteratorHasElement it = true ↔
      (it.byteOffset + t.width ≤ it.byteLength ∨ it.hasAccessedElement = true)) ∧
    ((jsvArrayBufferIteratorNew view index).type = none) ∧
    (jsvArrayBufferIteratorHasElement (jsvArrayBufferIteratorNew view index) =
      false) ∧
    (jsvArrayBufferIteratorGetIntegerValue (jsvArrayBufferIteratorNew view index) =
      (0, jsvArrayBufferIteratorNew view index)) ∧
    (jsvArrayBufferIteratorGetValueData (jsvArrayBufferIteratorNew view index) =
      ([], jsvArrayBufferIteratorNew view index)) ∧
    (jsvArrayBufferIteratorSetValue (jsvArrayBufferIteratorNew view index) v =
      jsvArrayBufferIteratorNew view index) ∧
    (jsvArrayBufferIteratorNext (jsvArrayBufferIteratorNew view index) =
      { jsvArrayBufferIteratorNew view index with
          index := (jsvArrayBufferIteratorNew view index).index + 1,
          byteOffset := (jsvArrayBufferIteratorNew view index).byteOffset + 0 }) := by
  have hcond : (view.type.width ≤ view.length * view.type.width + view.byteOffset + 1 ∧
      view.length * view.type.width + view.byteOffset + 1 ≤
        view.byteOffset + index * view.type.width + view.type.width) := by
    constructor
    · exact hwle
    · have : view.length * view.type.width ≤ index * view.type.width :=
        Nat.mul_le_mul_right _ hpast
      omega
  have hnew : jsvArrayBufferIteratorNew view index =
      { index := index, type := none,
        byteLength := view.length * view.type.width + view.byteOffset,
        byteOffset := view.byteOffset + index * view.type.width,
        hasAccessedElement := false,
        it := { prev := [], var := [], charIdx := 0, charsInVar := 0,
                varIndex := 0 } } := by
    rw [jsvArrayBufferIteratorNew]
    simp only [if_pos hcond]
  refine ⟨?_, ?_, ?_, ?_, ?_, ?_, ?_⟩
  · simp only [jsvArrayBufferIteratorHasElement, hm]
    cases h : it.hasAccessedElement <;> simp [h]
  · rw [hnew]
  · rw [hnew]; rfl
  · rw [hnew]; rfl
  · rw [hnew]; rfl
  · rw [hnew]; rfl
  · rw [hnew]; rfl

/-- C8, witness: a defined two-byte-wide cursor satisfying the has-element
equivalence, and a concrete past-the-end construction entering the undefined
state. -/
theorem c8_witness :
    (jsvArrayBufferIteratorHasElement
        { index := 0, type := some ⟨2, false, false, false⟩, byteLength := 4,
          byteOffset := 0, hasAccessedElement := false,
          it := jsvStringIteratorNew [⟨4, [1, 2, 3, 4]⟩] 0 } = true ↔
      (0 + 2 ≤ 4 ∨ false = true)) ∧
    (jsvArrayBufferIteratorNew
        ⟨⟨2, false, false, false⟩, 2, 0, [⟨4, [1, 2, 3, 4]⟩]⟩ 2).type = none ∧
    jsvArrayBufferIteratorHasElement (jsvArrayBufferIteratorNew
        ⟨⟨2, false, false, false⟩, 2, 0, [⟨4, [1, 2, 3, 4]⟩]⟩ 2) = false :=
  ⟨(c8_has_element_and_undefined
      { index := 0, type := some ⟨2, false, false, false⟩, byteLength := 4,
        byteOffset := 0, hasAccessedElement := false,
        it := jsvStringIteratorNew [⟨4, [1, 2, 3, 4]⟩] 0 }
      ⟨2, false, false, false⟩
      ⟨⟨2, false, false, false⟩, 2, 0, [⟨4, [1, 2, 3, 4]⟩]⟩ 2 0 rfl
      (by decide) (by decide) (by decide)).1,
   (c8_has_element_and_undefined
      { index := 0, type := some ⟨2, false, false, false⟩, byteLength := 4,
        byteOffset := 0, hasAccessedElement := false,
        it := jsvStringIteratorNew [⟨4, [1, 2, 3, 4]⟩] 0 }
      ⟨2, false, false, false⟩
      ⟨⟨2, false, false, false⟩, 2, 0, [⟨4, [1, 2, 3, 4]⟩]⟩ 2 0 rfl
      (by decide) (by decide) (by decide)).2.1,
   (c8_has_element_and_undefined
      { index := 0, type := some ⟨2, false, false, false⟩, byteLength := 4,
        byteOffset := 0, hasAccessedElement := false,
        it := jsvStringIteratorNew [⟨4, [1, 2, 3, 4]⟩] 0 }
      ⟨2, false, false, false⟩
      ⟨⟨2, false, false, false⟩, 2, 0, [⟨4, [1, 2, 3, 4]⟩]⟩ 2 0 rfl
      (by decide) (by decide) (by decide)).2.2.1⟩

/-! ## Claim C4: the multi-byte access flag -/

theorem nextN_rep (s : List Cell) (hwf : chainWFb s = true) :
    ∀ (n q : Nat) (it : JsvStringIterator), IterRep s it q →
      q + n ≤ chainLen s → IterRep s (nextN n it) (q + n) := by
  intro n
  induction n with
  | zero => intro q it h _; simpa [nextN] using h
  | succ n ih =>
      intro q it h hn
      have hq : q < chainLen s := by omega
      have := ih (q + 1) _ (IterRep.next hwf h hq) (by omega)
      simp only [nextN]
      have e : q + (n + 1) = q + 1 + n := by omega
      rw [e]
      exact this

theorem intToData_length (t : ABType) (v : Int) :
    (jsvArrayBufferIteratorIntToData t v).length = t.width := by
  simp [jsvArrayBufferIteratorIntToData]

theorem intToData_lt (t : ABType) (v : Int) :
    ∀ b ∈ jsvArrayBufferIteratorIntToData t v, b < 256 := by
  intro b hb
  simp only [jsvArrayBufferIteratorIntToData, List.mem_map,
    List.mem_range] at hb
  obtain ⟨j, -, hj⟩ := hb
  subst hj
  exact Nat.mod_lt _ (by omega)

theorem elemStoredBytes_length (t : ABType) (v : Int) :
    (elemStoredBytes t v).length = t.width := by
  simp [elemStoredBytes, intToData_length]
  split <;> simp [intToData_length]

theorem elemStoredBytes_lt (t : ABType) (v : Int) :
    ∀ b ∈ elemStoredBytes t v, b < 256 := by
  intro b hb
  simp only [elemStoredBytes] at hb
  split at hb
  · exact intToData_lt t v b (List.mem_reverse.mp hb)
  · exact intToData_lt t v b hb

/-- C4, counterexample to the claim as stated: on a little-endian two-byte
view over the bytes `[10,20,30,40]`, after a get of element 0 the embedded
cursor is at absolute byte 2 (the next element's first byte), not at the
element's last byte 1; and the subsequent `next` leaves the embedded cursor
where it is rather than advancing it one byte. -/
theorem c4_counterexample :
    ((jsvArrayBufferIteratorGetValueData (jsvArrayBufferIteratorNew
        ⟨⟨2, false, false, false⟩, 2, 0, [⟨4, [10, 20, 30, 40]⟩]⟩ 0)).2.it.varIndex +
      (jsvArrayBufferIteratorGetValueData (jsvArrayBufferIteratorNew
        ⟨⟨2, false, false, false⟩, 2, 0, [⟨4, [10, 20, 30, 40]⟩]⟩ 0)).2.it.charIdx = 2) ∧
    ¬((jsvArrayBufferIteratorGetValueData (jsvArrayBufferIteratorNew
        ⟨⟨2, false, false, false⟩, 2, 0, [⟨4, [10, 20, 30, 40]⟩]⟩ 0)).2.it.varIndex +
      (jsvArrayBufferIteratorGetValueData (jsvArrayBufferIteratorNew
        ⟨⟨2, false, false, false⟩, 2, 0, [⟨4, [10, 20, 30, 40]⟩]⟩ 0)).2.it.charIdx = 1) ∧
    ((jsvArrayBufferIteratorNext (jsvArrayBufferIteratorGetValueData
        (jsvArrayBufferIteratorNew
          ⟨⟨2, false, false, false⟩, 2, 0, [⟨4, [10, 20, 30, 40]⟩]⟩ 0)).2).it =
      (jsvArrayBufferIteratorGetValueData (jsvArrayBufferIteratorNew
        ⟨⟨2, false, false, false⟩, 2, 0, [⟨4, [10, 20, 30, 40]⟩]⟩ 0)).2.it) := by
  refine ⟨by decide, by decide, by decide⟩

/-- C4 (amended): for a defined multi-byte typed-view cursor whose embedded
cursor sits at the element's first byte (position `q`) with
`hasAccessedElement` clear, a get or set of the element advances the embedded
cursor `width` bytes — onto the next element's first byte — and sets
`hasAccessedElement`; the subsequent `next` leaves the embedded cursor
unmoved and clears the flag; and when `hasAccessedElement` is clear, `next`
advances the embedded cursor `width` bytes. -/
theorem c4_multibyte_access (s : List Cell) (t : ABType)
    (itA : JsvArrayBufferIterator) (q : Nat) (v : Int)
    (hwf : chainWFb s = true) (hm : itA.type = some t) (hw : 2 ≤ t.width)
    (hflag : itA.hasAccessedElement = false)
    (hrep : IterRep s itA.it q) (hq : q + t.width ≤ chainLen s) :
    (IterRep s (jsvArrayBufferIteratorGetValueData itA).2.it (q + t.width) ∧
     (jsvArrayBufferIteratorGetValueData itA).2.hasAccessedElement = true) ∧
    ((jsvArrayBufferIteratorNext
        (jsvArrayBufferIteratorGetValueData itA).2).it =
      (jsvArrayBufferIteratorGetValueData itA).2.it ∧
     (jsvArrayBufferIteratorNext
        (jsvArrayBufferIteratorGetValueData itA).2).hasAccessedElement =
      false) ∧
    (IterRep s (jsvArrayBufferIteratorNext itA).it (q + t.width)) ∧
    (∃ s2, IterRep s2 (jsvArrayBufferIteratorSetValue itA v).it (q + t.width) ∧
      (jsvArrayBufferIteratorSetValue itA v).hasAccessedElement = true ∧
      (jsvArrayBufferIteratorNext (jsvArrayBufferIteratorSetValue itA v)).it =
        (jsvArrayBufferIteratorSetValue itA v).it) := by
  have hw1 : ¬t.width = 1 := by omega
  have hget : jsvArrayBufferIteratorGetValueData itA =
      (if t.bigEndian then (readRun t.width itA.it).1.reverse
        else (readRun t.width itA.it).1,
       { itA with it := (readRun t.width itA.it).2,
                  hasAccessedElement := true }) := by
    rw [jsvArrayBufferIteratorGetValueData.eq_def, hm]
    simp [hw1]
  have hread := readRun_eq s hwf t.width q itA.it hrep hq
  refine ⟨⟨?_, ?_⟩, ⟨?_, ?_⟩, ?_, ?_⟩
  · rw [hget]; exact hread.2
  · rw [hget]
  · rw [hget]
    simp [jsvArrayBufferIteratorNext]
  · rw [hget]
    simp [jsvArrayBufferIteratorNext]
  · simp only [jsvArrayBufferIteratorNext, hflag, hm, sizeOfTag]
    simp only [Bool.false_eq_true, if_neg, ite_false]
    exact nextN_rep s hwf t.width q itA.it hrep hq
  · have hset : jsvArrayBufferIteratorSetValue itA v =
        { itA with
          it := writeRun
            (if t.bigEndian then (jsvArrayBufferIteratorIntToData t v).reverse
              else jsvArrayBufferIteratorIntToData t v) itA.it,
          hasAccessedElement := true } := by
      rw [jsvArrayBufferIteratorSetValue.eq_def, hm]
      simp [hw1]
    have hwlen : (if t.bigEndian
        then (jsvArrayBufferIteratorIntToData t v).reverse
        else jsvArrayBufferIteratorIntToData t v).length = t.width := by
      split <;> simp [intToData_length]
    obtain ⟨s2, hrep2, -, hwf2, -⟩ := writeRun_rep
      (if t.bigEndian then (jsvArrayBufferIteratorIntToData t v).reverse
        else jsvArrayBufferIteratorIntToData t v) s q itA.it hwf hrep
      (by rw [hwlen]; exact hq)
      (fun b hb => by
        split at hb
        · exact intToData_lt t v b (List.mem_reverse.mp hb)
        · exact intToData_lt t v b hb)
    refine ⟨s2, ?_, ?_, ?_⟩
    · rw [hset]
      simpa [hwlen] using hrep2
    · rw [hset]
    · rw [hset]
      simp [jsvArrayBufferIteratorNext]

/-- C4, witness: the little-endian two-byte view over `[10,20,30,40]` at
element 0. -/
theorem c4_witness :
    chainWFb [(⟨4, [10, 20, 30, 40]⟩ : Cell)] = true ∧
    IterRep [(⟨4, [10, 20, 30, 40]⟩ : Cell)]
      (jsvArrayBufferIteratorNew
        ⟨⟨2, false, false, false⟩, 2, 0, [⟨4, [10, 20, 30, 40]⟩]⟩ 0).it 0 ∧
    (IterRep [(⟨4, [10, 20, 30, 40]⟩ : Cell)]
        (jsvArrayBufferIteratorGetValueData (jsvArrayBufferIteratorNew
          ⟨⟨2, false, false, false⟩, 2, 0, [⟨4, [10, 20, 30, 40]⟩]⟩ 0)).2.it
        (0 + 2) ∧
      (jsvArrayBufferIteratorGetValueData (jsvArrayBufferIteratorNew
        ⟨⟨2, false, false, false⟩, 2, 0, [⟨4, [10, 20, 30, 40]⟩]⟩ 0)).2.hasAccessedElement =
        true) := by
  have hrep : IterRep [(⟨4, [10, 20, 30, 40]⟩ : Cell)]
      (jsvArrayBufferIteratorNew
        ⟨⟨2, false, false, false⟩, 2, 0, [⟨4, [10, 20, 30, 40]⟩]⟩ 0).it 0 := by
    have h := IterRep.inCell (s := [(⟨4, [10, 20, 30, 40]⟩ : Cell)])
      [] ⟨4, [10, 20, 30, 40]⟩ [] 0 rfl (by decide)
    have he : (jsvArrayBufferIteratorNew
        ⟨⟨2, false, false, false⟩, 2, 0, [⟨4, [10, 20, 30, 40]⟩]⟩ 0).it =
        { prev := [], var := [⟨4, [10, 20, 30, 40]⟩], charIdx := 0,
          charsInVar := 4, varIndex := 0 } := by decide
    rw [he]
    simpa using h
  exact ⟨by decide, hrep,
    (c4_multibyte_access [(⟨4, [10, 20, 30, 40]⟩ : Cell)]
      ⟨2, false, false, false⟩ _ 0 0 (by decide) rfl (by decide) rfl hrep
      (by decide)).1⟩

/-! ## Claim C5: integer element round trip -/

theorem getD_map_range (f : Nat → Nat) (w j : Nat) :
    ((List.range w).map f).getD j 0 = if j < w then f j else 0 := by
  split
  · rw [List.getD_eq_getElem _ _ (by simpa)]
    simp
  · rw [List.getD_eq_default _ _ (by simpa using (by omega : w ≤ j))]

theorem validIntTag_width (t : ABType) (hvalid : validIntTag t = true) :
    t.width = 1 ∨ t.width = 2 ∨ t.width = 4 := by
  simp only [validIntTag, Bool.and_eq_true, Bool.or_eq_true,
    decide_eq_true_eq] at hvalid
  tauto

theorem validIntTag_clamped (t : ABType) (hvalid : validIntTag t = true)
    (hcl : t.clamped = true) : t.width = 1 ∧ t.signed = false := by
  simp only [validIntTag, Bool.and_eq_true, Bool.or_eq_true,
    Bool.not_eq_true', decide_eq_true_eq] at hvalid
  rcases hvalid.2 with h | h
  · rw [h] at hcl; cases hcl
  · exact ⟨h.1, by simpa using h.2⟩

theorem dataToInt_eval (t : ABType) (data : List Nat) (u : Int)
    (hw : t.width = 1 ∨ t.width = 2 ∨ t.width = 4)
    (hm : ((data.getD 0 0 + data.getD 1 0 * 256 + data.getD 2 0 * 65536 +
      data.getD 3 0 * 16777216 : Nat) : Int) = u)
    (hu : 0 ≤ u) (hub : u < 2 ^ (8 * t.width)) :
    jsvArrayBufferIteratorDataToInt t data =
      (if t.signed ∧ 2 ^ (8 * t.width - 1) ≤ u
        then u - 2 ^ (8 * t.width) else u) := by
  simp only [jsvArrayBufferIteratorDataToInt]
  set mN : Nat := data.getD 0 0 + data.getD 1 0 * 256 + data.getD 2 0 * 65536 +
    data.getD 3 0 * 16777216 with hmN
  have hcast : (mN : Int) = u := hm
  have hv2 : (if 2 ^ 31 ≤ mN then (mN : Int) - 2 ^ 32 else (mN : Int)).emod
      (2 ^ (8 * t.width)) = u := by
    by_cases hbig : 2 ^ 31 ≤ mN
    · rw [if_pos hbig]
      have hbits : 8 * t.width = 32 := by
        rcases hw with h | h | h <;> rw [h] at hub ⊢ <;> first
          | rfl
          | (exfalso
             have : (2 ^ 31 : Int) ≤ (mN : Int) := by exact_mod_cast hbig
             rw [hcast] at this
             norm_num at hub this
             omega)
      rw [hbits, hcast]
      have hub32 : u < 2 ^ 32 := by rw [hbits] at hub; exact hub
      show (u - 2 ^ 32) % ((2 : Int) ^ 32) = u
      omega
    · rw [if_neg hbig, hcast]
      exact Int.emod_eq_of_lt hu hub
  rw [hv2]

theorem bytes_sum_eq (n w : Nat) (hw : w = 1 ∨ w = 2 ∨ w = 4) :
    ((List.range w).map (fun j => n / 256 ^ j % 256)).getD 0 0 +
      ((List.range w).map (fun j => n / 256 ^ j % 256)).getD 1 0 * 256 +
      ((List.range w).map (fun j => n / 256 ^ j % 256)).getD 2 0 * 65536 +
      ((List.range w).map (fun j => n / 256 ^ j % 256)).getD 3 0 * 16777216 =
      n % 2 ^ (8 * w) := by
  rcases hw with h | h | h <;> subst h <;>
    simp only [getD_map_range] <;> norm_num <;> omega

theorem dataToInt_intToData (t : ABType) (v : Int)
    (hvalid : validIntTag t = true) :
    jsvArrayBufferIteratorDataToInt t (jsvArrayBufferIteratorIntToData t v) =
      specTruncate t v := by
  have hw := validIntTag_width t hvalid
  have hble : 8 * t.width ≤ 64 := by rcases hw with h | h | h <;> omega
  set v1 : Int := if t.clamped = true
    then (if v < 0 then 0 else if 255 < v then 255 else v) else v with hv1def
  have hdata : jsvArrayBufferIteratorIntToData t v =
      (List.range t.width).map
        (fun j => (v1.emod (2 ^ 64)).toNat / 256 ^ j % 256) := by
    simp only [jsvArrayBufferIteratorIntToData, hv1def]
  set n : Nat := (v1.emod (2 ^ 64)).toNat with hndef
  have hn64 : (n : Int) = v1 % 2 ^ 64 :=
    Int.toNat_of_nonneg (Int.emod_nonneg _ (by norm_num))
  set u : Int := v1 % 2 ^ (8 * t.width) with hudef
  have hu0 : 0 ≤ u := Int.emod_nonneg _ (by positivity)
  have hub : u < 2 ^ (8 * t.width) :=
    Int.emod_lt_of_pos _ (by positivity)
  have hm : (((jsvArrayBufferIteratorIntToData t v).getD 0 0 +
      (jsvArrayBufferIteratorIntToData t v).getD 1 0 * 256 +
      (jsvArrayBufferIteratorIntToData t v).getD 2 0 * 65536 +
      (jsvArrayBufferIteratorIntToData t v).getD 3 0 * 16777216 : Nat) : Int) =
      u := by
    rw [hdata, bytes_sum_eq n t.width hw]
    have hdvd : ((2 : Int) ^ (8 * t.width)) ∣ (2 : Int) ^ 64 :=
      pow_dvd_pow 2 hble
    push_cast
    rw [hn64, Int.emod_emod_of_dvd _ hdvd]
  have heval := dataToInt_eval t (jsvArrayBufferIteratorIntToData t v) u hw hm
    hu0 hub
  rw [heval]
  by_cases hcl : t.clamped = true
  · obtain ⟨hw1, hsgn⟩ := validIntTag_clamped t hvalid hcl
    have hv1b : 0 ≤ v1 ∧ v1 ≤ 255 := by
      rw [hv1def, if_pos hcl]
      split
      · omega
      · split <;> omega
    have hueq : u = v1 := by
      rw [hudef, hw1]
      norm_num
      omega
    rw [specTruncate, if_pos hcl, hsgn]
    simp only [Bool.false_eq_true, false_and, if_neg, ite_false, hueq, hv1def,
      if_pos hcl]
  · rw [specTruncate, if_neg hcl]
    have hv1v : v1 = v := by rw [hv1def, if_neg hcl]
    simp only [hudef, hv1v]
    rfl

theorem IterRep.itChain_eq {s : List Cell} {it : JsvStringIterator} {q : Nat}
    (h : IterRep s it q) : itChain it = s := by
  cases h with
  | inCell pre cur post ci hs hlt => simp [itChain, hs]
  | atEnd it hv hp hc => simp [itChain, hv, hp]

theorem elemStored_width1 (t : ABType) (v : Int) (h1 : t.width = 1) :
    elemStoredBytes t v = [(jsvArrayBufferIteratorIntToData t v).getD 0 0] := by
  have hd : jsvArrayBufferIteratorIntToData t v =
      [((if t.clamped then (if v < 0 then 0 else if 255 < v then 255 else v)
          else v).emod (2 ^ 64)).toNat / 256 ^ 0 % 256] := by
    simp [jsvArrayBufferIteratorIntToData, h1, List.range_succ]
  rw [elemStoredBytes, hd]
  split <;> rfl

theorem flatten_stored_length (t : ABType) (vs : List Int) :
    ((vs.map (elemStoredBytes t)).flatten).length = vs.length * t.width := by
  induction vs with
  | nil => simp
  | cons v vs ih =>
      simp only [List.map_cons, List.flatten_cons, List.length_append, ih,
        elemStoredBytes_length, List.length_cons]
      ring

theorem abNew_defined (view : ABView) (hlen1 : 1 ≤ view.length) :
    jsvArrayBufferIteratorNew view 0 =
      { index := 0, type := some view.type,
        byteLength := view.length * view.type.width + view.byteOffset,
        byteOffset := view.byteOffset + 0 * view.type.width,
        hasAccessedElement := false,
        it := jsvStringIteratorNew view.backing
          (view.byteOffset + 0 * view.type.width) } := by
  rw [jsvArrayBufferIteratorNew]
  rw [if_neg]
  intro hc
  have := hc.2
  have hwle : view.type.width ≤ view.length * view.type.width :=
    Nat.le_mul_of_pos_left _ (by omega)
  omega

theorem setValueNext_step (s : List Cell) (t : ABType)
    (itA : JsvArrayBufferIterator) (q : Nat) (v : Int)
    (hwf : chainWFb s = true) (hvalid : validIntTag t = true)
    (hm : itA.type = some t) (hflag : itA.hasAccessedElement = false)
    (hrep : IterRep s itA.it q) (hq : q + t.width ≤ chainLen s) :
    ∃ s2,
      (jsvArrayBufferIteratorNext
        (jsvArrayBufferIteratorSetValue itA v)).type = some t ∧
      (jsvArrayBufferIteratorNext
        (jsvArrayBufferIteratorSetValue itA v)).hasAccessedElement = false ∧
      IterRep s2 (jsvArrayBufferIteratorNext
        (jsvArrayBufferIteratorSetValue itA v)).it (q + t.width) ∧
      chainWFb s2 = true ∧ chainLen s2 = chainLen s ∧
      chainBytes s2 = (chainBytes s).take q ++ elemStoredBytes t v ++
        (chainBytes s).drop (q + t.width) := by
  have hw1 : 1 ≤ t.width := by
    rcases validIntTag_width t hvalid with h | h | h <;> omega
  by_cases hwone : t.width = 1
  · have hset : jsvArrayBufferIteratorSetValue itA v =
        { itA with
          it := (jsvStringIteratorSetChar itA.it
            ((jsvArrayBufferIteratorIntToData t v).getD 0 0)) } := by
      rw [jsvArrayBufferIteratorSetValue.eq_def, hm]
      simp [hwone]
    have hq1 : q < chainLen s := by omega
    have hblt : (jsvArrayBufferIteratorIntToData t v).getD 0 0 < 256 := by
      have := intToData_lt t v
      have hne : jsvArrayBufferIteratorIntToData t v ≠ [] := by
        have := intToData_length t v
        intro hnil
        rw [hnil] at this
        simp at this
        omega
      cases hd : jsvArrayBufferIteratorIntToData t v with
      | nil => exact absurd hd hne
      | cons b rest =>
          have hb := intToData_lt t v b (by rw [hd]; simp)
          simpa [hd] using hb
    obtain ⟨s2, hrep2, hbytes2, hwf2, hlen2⟩ :=
      setChar_rep s itA.it q ((jsvArrayBufferIteratorIntToData t v).getD 0 0)
        hwf hrep hq1 hblt
    refine ⟨s2, ?_, ?_, ?_, hwf2, hlen2, ?_⟩
    · rw [hset]
      simp [jsvArrayBufferIteratorNext, hflag, hm]
    · rw [hset]
      simp [jsvArrayBufferIteratorNext, hflag]
    · rw [hset]
      simp only [jsvArrayBufferIteratorNext, hflag, hm, sizeOfTag, hwone]
      simp only [Bool.false_eq_true, if_neg, ite_false]
      have hqs2 : q < chainLen s2 := by omega
      have hstep := IterRep.next hwf2 hrep2 hqs2
      simpa [nextN] using hstep
    · rw [hbytes2, elemStored_width1 t v hwone]
      have hqlen : q < (chainBytes s).length := by simpa [chainLen] using hq1
      rw [List.set_eq_take_cons_drop _ hqlen]
      have e : q + t.width = q + 1 := by omega
      rw [e]
      simp
  · have hw2 : 2 ≤ t.width := by omega
    have hset : jsvArrayBufferIteratorSetValue itA v =
        { itA with
          it := writeRun (elemStoredBytes t v) itA.it,
          hasAccessedElement := true } := by
      rw [jsvArrayBufferIteratorSetValue.eq_def, hm]
      simp [hwone, elemStoredBytes]
    obtain ⟨s2, hrep2, hbytes2, hwf2, hlen2⟩ := writeRun_rep
      (elemStoredBytes t v) s q itA.it hwf hrep
      (by rw [elemStoredBytes_length]; exact hq) (elemStoredBytes_lt t v)
    refine ⟨s2, ?_, ?_, ?_, hwf2, hlen2, ?_⟩
    · rw [hset]
      simp [jsvArrayBufferIteratorNext, hm]
    · rw [hset]
      simp [jsvArrayBufferIteratorNext]
    · rw [hset]
      simp only [jsvArrayBufferIteratorNext]
      simpa [elemStoredBytes_length] using hrep2
    · rw [hbytes2, elemStoredBytes_length]

theorem getIntNext_step (s : List Cell) (t : ABType)
    (itA : JsvArrayBufferIterator) (q : Nat)
    (hwf : chainWFb s = true) (hvalid : validIntTag t = true)
    (hm : itA.type = some t) (hflag : itA.hasAccessedElement = false)
    (hrep : IterRep s itA.it q) (hq : q + t.width ≤ chainLen s) :
    (jsvArrayBufferIteratorGetIntegerValue itA).1 =
      jsvArrayBufferIteratorDataToInt t
        (if t.bigEndian then (((chainBytes s).drop q).take t.width).reverse
          else ((chainBytes s).drop q).take t.width) ∧
    (jsvArrayBufferIteratorNext
      (jsvArrayBufferIteratorGetIntegerValue itA).2).type = some t ∧
    (jsvArrayBufferIteratorNext
      (jsvArrayBufferIteratorGetIntegerValue itA).2).hasAccessedElement =
      false ∧
    IterRep s (jsvArrayBufferIteratorNext
      (jsvArrayBufferIteratorGetIntegerValue itA).2).it (q + t.width) := by
  have hw1 : 1 ≤ t.width := by
    rcases validIntTag_width t hvalid with h | h | h <;> omega
  by_cases hwone : t.width = 1
  · have hq1 : q < chainLen s := by omega
    have hgot : jsvArrayBufferIteratorGetIntegerValue itA =
        (jsvArrayBufferIteratorDataToInt t [jsvStringIteratorGetChar itA.it],
          itA) := by
      rw [jsvArrayBufferIteratorGetIntegerValue.eq_def,
        jsvArrayBufferIteratorGetValueData.eq_def, hm]
      simp [hwone]
    have hone : ((chainBytes s).drop q).take t.width =
        [jsvStringIteratorGetChar itA.it] := by
      rw [hrep.getChar_eq hq1, hwone,
        List.drop_eq_getElem_cons (show q < (chainBytes s).length by
          simpa [chainLen] using hq1),
        List.getD_eq_getElem _ _ (by simpa [chainLen] using hq1)]
      rfl
    refine ⟨?_, ?_, ?_, ?_⟩
    · rw [hgot, hone]
      split <;> rfl
    · rw [hgot]
      simp [jsvArrayBufferIteratorNext, hflag, hm]
    · rw [hgot]
      simp [jsvArrayBufferIteratorNext, hflag]
    · rw [hgot]
      simp only [jsvArrayBufferIteratorNext, hflag, hm, sizeOfTag, hwone]
      simp only [Bool.false_eq_true, if_neg, ite_false]
      have hstep := IterRep.next hwf hrep hq1
      simpa [nextN] using hstep
  · have hread := readRun_eq s hwf t.width q itA.it hrep hq
    have hgot : jsvArrayBufferIteratorGetIntegerValue itA =
        (jsvArrayBufferIteratorDataToInt t
          (if t.bigEndian then (readRun t.width itA.it).1.reverse
            else (readRun t.width itA.it).1),
          { itA with it := (readRun t.width itA.it).2,
                     hasAccessedElement := true }) := by
      rw [jsvArrayBufferIteratorGetIntegerValue.eq_def,
        jsvArrayBufferIteratorGetValueData.eq_def, hm]
      simp [hwone]
    refine ⟨?_, ?_, ?_, ?_⟩
    · rw [hgot, hread.1]
    · rw [hgot]
      simp [jsvArrayBufferIteratorNext, hm]
    · rw [hgot]
      simp [jsvArrayBufferIteratorNext]
    · rw [hgot]
      simp only [jsvArrayBufferIteratorNext]
      simpa using hread.2

theorem write_fold (t : ABType) (hvalid : validIntTag t = true) :
    ∀ (vs : List Int) (s : List Cell) (itA : JsvArrayBufferIterator) (q : Nat),
      chainWFb s = true → itA.type = some t →
      itA.hasAccessedElement = false → IterRep s itA.it q →
      q + vs.length * t.width ≤ chainLen s →
      ∃ s2,
        (vs.foldl (fun a v => jsvArrayBufferIteratorNext
          (jsvArrayBufferIteratorSetValue a v)) itA).it.prev ++
          (vs.foldl (fun a v => jsvArrayBufferIteratorNext
            (jsvArrayBufferIteratorSetValue a v)) itA).it.var = s2 ∧
        IterRep s2 (vs.foldl (fun a v => jsvArrayBufferIteratorNext
          (jsvArrayBufferIteratorSetValue a v)) itA).it
          (q + vs.length * t.width) ∧
        chainWFb s2 = true ∧ chainLen s2 = chainLen s ∧
        chainBytes s2 = (chainBytes s).take q ++
          (vs.map (elemStoredBytes t)).flatten ++
          (chainBytes s).drop (q + vs.length * t.width) := by
  intro vs
  induction vs with
  | nil =>
      intro s itA q hwf hm hflag hrep hfit
      refine ⟨s, ?_, by simpa using hrep, hwf, rfl, by simp⟩
      have := hrep.itChain_eq
      simpa [itChain] using this
  | cons v vs ih =>
      intro s itA q hwf hm hflag hrep hfit
      have hq1 : q + t.width ≤ chainLen s := by
        have hw1 : 1 ≤ t.width := by
          rcases validIntTag_width t hvalid with h | h | h <;> omega
        simp only [List.length_cons] at hfit
        have : (vs.length + 1) * t.width = vs.length * t.width + t.width := by
          ring
        omega
      obtain ⟨s1, hm1, hflag1, hrep1, hwf1, hlen1, hbytes1⟩ :=
        setValueNext_step s t itA q v hwf hvalid hm hflag hrep hq1
      obtain ⟨s2, hchain2, hrep2, hwf2, hlen2, hbytes2⟩ :=
        ih s1 _ (q + t.width) hwf1 hm1 hflag1 hrep1
          (by simp only [List.length_cons] at hfit
              have : (vs.length + 1) * t.width =
                vs.length * t.width + t.width := by ring
              omega)
      have harith : q + (v :: vs).length * t.width =
          q + t.width + vs.length * t.width := by
        simp only [List.length_cons]
        ring
      refine ⟨s2, ?_, ?_, hwf2, by omega, ?_⟩
      · simpa [List.foldl_cons] using hchain2
      · rw [harith]
        simpa [List.foldl_cons] using hrep2
      · rw [hbytes2, hbytes1]
        have hqlen : q ≤ (chainBytes s).length := by
          simp only [chainLen] at hq1
          omega
        have htk : ((chainBytes s).take q).length = q := by
          rw [List.length_take]
          omega
        have hel : (elemStoredBytes t v).length = t.width :=
          elemStoredBytes_length t v
        -- take (q + width) of the written chain is the prefix plus the element
        have htake : ((chainBytes s).take q ++ elemStoredBytes t v ++
            (chainBytes s).drop (q + t.width)).take (q + t.width) =
            (chainBytes s).take q ++ elemStoredBytes t v := by
          rw [List.append_assoc, List.take_append_eq_append_take, htk]
          have h1 : ((chainBytes s).take q).take (q + t.width) =
              (chainBytes s).take q := by
            rw [List.take_take]
            congr 1
            omega
          rw [h1]
          have h2 : q + t.width - q = t.width := by omega
          rw [h2, List.take_append_eq_append_take, hel]
          have h3 : (elemStoredBytes t v).take t.width =
              elemStoredBytes t v := by
            rw [← hel, List.take_length]
          rw [h3]
          have h4 : t.width - t.width = 0 := by omega
          rw [h4]
          simp
        have hdrop : ((chainBytes s).take q ++ elemStoredBytes t v ++
            (chainBytes s).drop (q + t.width)).drop
              (q + t.width + vs.length * t.width) =
            (chainBytes s).drop (q + t.width + vs.length * t.width) := by
          have hlenpre : ((chainBytes s).take q ++ elemStoredBytes t v).length =
              q + t.width := by
            rw [List.length_append, htk, hel]
          rw [List.append_assoc, ← List.append_assoc,
            List.drop_append_eq_append_drop, hlenpre]
          have h5 : ((chainBytes s).take q ++ elemStoredBytes t v).drop
              (q + t.width + vs.length * t.width) = [] := by
            rw [List.drop_eq_nil_iff]
            rw [hlenpre]
            omega
          rw [h5, List.nil_append]
          have h6 : q + t.width + vs.length * t.width - (q + t.width) =
              vs.length * t.width := by omega
          rw [h6, List.drop_drop]
        rw [htake, hdrop, harith]
        simp [List.append_assoc]

theorem read_fold (t : ABType) (hvalid : validIntTag t = true) :
    ∀ (vs : List Int) (s2 : List Cell) (itA : JsvArrayBufferIterator) (q : Nat),
      chainWFb s2 = true → itA.type = some t →
      itA.hasAccessedElement = false → IterRep s2 itA.it q →
      q + vs.length * t.width ≤ chainLen s2 →
      ((chainBytes s2).drop q).take (vs.length * t.width) =
        (vs.map (elemStoredBytes t)).flatten →
      abReadLoop vs.length itA = vs.map (specTruncate t) := by
  intro vs
  induction vs with
  | nil => intro s2 itA q _ _ _ _ _ _; rfl
  | cons v vs ih =>
      intro s2 itA q hwf hm hflag hrep hfit hstored
      have hw1 : 1 ≤ t.width := by
        rcases validIntTag_width t hvalid with h | h | h <;> omega
      have hq1 : q + t.width ≤ chainLen s2 := by
        simp only [List.length_cons] at hfit
        have : (vs.length + 1) * t.width = vs.length * t.width + t.width := by
          ring
        omega
      obtain ⟨hval, hm2, hflag2, hrep2⟩ :=
        getIntNext_step s2 t itA q hwf hvalid hm hflag hrep hq1
      have hel : (elemStoredBytes t v).length = t.width :=
        elemStoredBytes_length t v
      have hslice : ((chainBytes s2).drop q).take t.width =
          elemStoredBytes t v := by
        have h1 : ((chainBytes s2).drop q).take t.width =
            (((chainBytes s2).drop q).take ((v :: vs).length * t.width)).take
              t.width := by
          rw [List.take_take]
          congr 1
          simp only [List.length_cons]
          have : (vs.length + 1) * t.width = vs.length * t.width + t.width := by
            ring
          omega
        rw [h1, hstored]
        simp only [List.map_cons, List.flatten_cons]
        rw [List.take_append_eq_append_take, hel]
        have h3 : (elemStoredBytes t v).take t.width = elemStoredBytes t v := by
          rw [← hel, List.take_length]
        rw [h3]
        have h4 : t.width - t.width = 0 := by omega
        rw [h4]
        simp
      have hvalue : (jsvArrayBufferIteratorGetIntegerValue itA).1 =
          specTruncate t v := by
        rw [hval, hslice]
        have : (if t.bigEndian then (elemStoredBytes t v).reverse
            else elemStoredBytes t v) = jsvArrayBufferIteratorIntToData t v := by
          rw [elemStoredBytes]
          by_cases hbe : t.bigEndian <;> simp [hbe]
        rw [this]
        exact dataToInt_intToData t v hvalid
      have hstored2 : ((chainBytes s2).drop (q + t.width)).take
          (vs.length * t.width) = (vs.map (elemStoredBytes t)).flatten := by
        have h1 : (chainBytes s2).drop (q + t.width) =
            ((chainBytes s2).drop q).drop t.width := by
          rw [List.drop_drop]
        rw [h1]
        have h2 : (((chainBytes s2).drop q).drop t.width).take
            (vs.length * t.width) =
            (((chainBytes s2).drop q).take ((v :: vs).length * t.width)).drop
              t.width := by
          rw [List.drop_take]
          congr 1
          simp only [List.length_cons]
          have : (vs.length + 1) * t.width = vs.length * t.width + t.width := by
            ring
          omega
        rw [h2, hstored]
        simp only [List.map_cons, List.flatten_cons]
        rw [List.drop_append_eq_append_drop, hel]
        have h3 : (elemStoredBytes t v).drop t.width = [] := by
          rw [List.drop_eq_nil_iff, hel]
        rw [h3]
        have h4 : t.width - t.width = 0 := by omega
        rw [h4]
        simp
      have hfit2 : q + t.width + vs.length * t.width ≤ chainLen s2 := by
        simp only [List.length_cons] at hfit
        have : (vs.length + 1) * t.width = vs.length * t.width + t.width := by
          ring
        omega
      have hrec := ih s2 _ (q + t.width) hwf hm2 hflag2 hrep2 hfit2 hstored2
      simp only [List.length_cons, abReadLoop, List.map_cons]
      rw [hvalue, hrec]

/-- C5: for any typed view over a well-formed backing chain and any
sequence of integer values that fits in the view, writing the values through
the typed-view cursor from index 0 (`set-value` then `next`, per element) and
then reading them back from index 0 (`get-integer` then `next`) yields,
element-wise, the value truncated to the low `8*width` bits, sign-extended on
read when the tag is signed, and saturated to `[0,255]` for the clamped
(8-bit unsigned) tag. -/
theorem c5_typed_view_roundtrip (view : ABView) (vs : List Int)
    (hvalid : validIntTag view.type = true)
    (hwf : chainWFb view.backing = true)
    (hlen1 : 1 ≤ view.length)
    (hfit : view.byteOffset + view.length * view.type.width ≤
      chainLen view.backing)
    (hcnt : vs.length ≤ view.length) :
    abReadSeq { view with backing := itChain (abWriteSeq view vs).it }
      vs.length = vs.map (specTruncate view.type) := by
  have hw1 : 1 ≤ view.type.width := by
    rcases validIntTag_width _ hvalid with h | h | h <;> omega
  have hq0 : view.byteOffset < chainLen view.backing := by
    have : view.type.width ≤ view.length * view.type.width :=
      Nat.le_mul_of_pos_left _ (by omega)
    omega
  have hnew := abNew_defined view hlen1
  have hrep0 : IterRep view.backing (jsvArrayBufferIteratorNew view 0).it
      view.byteOffset := by
    rw [hnew]
    simpa using iterRep_new view.backing view.byteOffset hwf hq0
  have hfit0 : view.byteOffset + vs.length * view.type.width ≤
      chainLen view.backing := by
    have : vs.length * view.type.width ≤ view.length * view.type.width :=
      Nat.mul_le_mul_right _ hcnt
    omega
  obtain ⟨s2, hchain, hrep2, hwf2, hlen2, hbytes2⟩ :=
    write_fold view.type hvalid vs view.backing
      (jsvArrayBufferIteratorNew view 0) view.byteOffset hwf
      (by rw [hnew]) (by rw [hnew]) hrep0 hfit0
  have hitc : itChain (abWriteSeq view vs).it = s2 := hchain
  rw [hitc, abReadSeq]
  have hnew2 := abNew_defined { view with backing := s2 } hlen1
  have hq2 : view.byteOffset < chainLen s2 := by omega
  have hrep0' : IterRep s2
      (jsvArrayBufferIteratorNew { view with backing := s2 } 0).it
      view.byteOffset := by
    rw [hnew2]
    simpa using iterRep_new s2 view.byteOffset hwf2 hq2
  have hA : ((chainBytes view.backing).take view.byteOffset).length =
      view.byteOffset := by
    rw [List.length_take]
    have : view.byteOffset ≤ (chainBytes view.backing).length := by
      have := hfit0
      simp only [chainLen] at this ⊢
      omega
    omega
  have hF : ((vs.map (elemStoredBytes view.type)).flatten).length =
      vs.length * view.type.width := flatten_stored_length view.type vs
  have hstored : ((chainBytes s2).drop view.byteOffset).take
      (vs.length * view.type.width) =
      (vs.map (elemStoredBytes view.type)).flatten := by
    rw [hbytes2, List.append_assoc, List.drop_left' hA, List.take_left' hF]
  exact read_fold view.type hvalid vs s2
    (jsvArrayBufferIteratorNew { view with backing := s2 } 0)
    view.byteOffset hwf2 (by rw [hnew2]) (by rw [hnew2]) hrep0'
    (by omega) hstored

/-- Witness for C5: a signed 16-bit little-endian view of length 2 at byte
offset 1 of a six-byte backing string; writing `[70000, -1]` and reading back
gives `[4464, -1]` (truncation to 16 bits and sign-extension). -/
theorem c5_witness :
    abReadSeq
      { (⟨⟨2, true, false, false⟩, 2, 1, [⟨8, [9, 9, 9, 9, 9, 9]⟩]⟩ : ABView)
        with backing := itChain (abWriteSeq
          ⟨⟨2, true, false, false⟩, 2, 1, [⟨8, [9, 9, 9, 9, 9, 9]⟩]⟩
          [70000, -1]).it } 2 = [4464, -1] := by
  have h := c5_typed_view_roundtrip
    ⟨⟨2, true, false, false⟩, 2, 1, [⟨8, [9, 9, 9, 9, 9, 9]⟩]⟩
    [70000, -1] (by decide) (by decide) (by decide) (by decide) (by decide)
  have h2 : ([70000, -1] : List Int).map
      (specTruncate ⟨2, true, false, false⟩) = [4464, -1] := by decide
  rw [h2] at h
  exact h

/-! ## Claim C6: the FULL-ARRAY unified cursor -/

theorem childAt_append_none (i : Nat) :
    ∀ (pre l : List (Nat × JsVal)), (∀ p ∈ pre, p.1 ≠ i) →
      childAt (pre ++ l) i = childAt l i := by
  intro pre
  induction pre with
  | nil => intro l _; rfl
  | cons p pre ih =>
      intro l h
      obtain ⟨k, v⟩ := p
      have hk : k ≠ i := h (k, v) (List.mem_cons_self _ _)
      simp only [List.cons_append, childAt, if_neg hk]
      exact ih l (fun q hq => h q (List.mem_cons_of_mem _ hq))

theorem childAt_none (i : Nat) :
    ∀ (l : List (Nat × JsVal)), (∀ p ∈ l, p.1 ≠ i) → childAt l i = none := by
  intro l
  induction l with
  | nil => intro _; rfl
  | cons p l ih =>
      intro h
      obtain ⟨k, v⟩ := p
      have hk : k ≠ i := h (k, v) (List.mem_cons_self _ _)
      simp only [childAt, if_neg hk]
      exact ih (fun q hq => h q (List.mem_cons_of_mem _ hq))

theorem fa_collect_aux (b : JsArrayObj)
    (hsorted : b.children.Pairwise (fun p q => p.1 < q.1)) :
    ∀ (n i : Nat) (pre itcur : List (Nat × JsVal)),
      b.children = pre ++ itcur →
      (∀ p ∈ pre, p.1 < i) →
      (∀ p ∈ itcur, i ≤ p.1) →
      i + n ≤ b.length →
      faCollectVals n ⟨i, b, itcur⟩ =
        (List.range' i n).map (fun j => childAt b.children j) ∧
      faCollectInts n ⟨i, b, itcur⟩ =
        (List.range' i n).map
          (fun j => ((childAt b.children j).map jsvGetIntegerV).getD 0) ∧
      faCollectFloats n ⟨i, b, itcur⟩ =
        (List.range' i n).map
          (fun j => ((childAt b.children j).map jsvGetFloatV).getD .nan) := by
  intro n
  induction n with
  | zero =>
      intro i pre itcur hsplit hpre hitcur hn
      refine ⟨rfl, rfl, rfl⟩
  | succ n ih =>
      intro i pre itcur hsplit hpre hitcur hn
      have hhas : i < b.length := by omega
      rcases itcur with _ | ⟨⟨k, v⟩, rest⟩
      · have hlook : childAt b.children i = none := by
          apply childAt_none
          intro p hp
          rw [hsplit, List.append_nil] at hp
          exact Nat.ne_of_lt (hpre p hp)
        obtain ⟨ih1, ih2, ih3⟩ := ih (i + 1) pre []
          (by simpa using hsplit)
          (fun p hp => Nat.lt_trans (hpre p hp) (Nat.lt_succ_self i))
          (by simp)
          (by omega)
        refine ⟨?_, ?_, ?_⟩ <;>
          simp [faCollectVals, faCollectInts, faCollectFloats,
            jsvIteratorHasElementFA, hhas, jsvIteratorGetValueFA,
            jsvIteratorGetIntegerValueFA, jsvIteratorGetFloatValueFA,
            jsvIteratorNextFA, List.range'_succ, hlook, ih1, ih2, ih3]
      · have hrest : ∀ p ∈ rest, k < p.1 := by
          have h2 : ((k, v) :: rest).Pairwise
              (fun p q : Nat × JsVal => p.1 < q.1) :=
            ((List.pairwise_append.mp (hsplit ▸ hsorted)).2.1)
          exact fun p hp => (List.pairwise_cons.mp h2).1 p hp
        have hki : i ≤ k := hitcur (k, v) (List.mem_cons_self _ _)
        by_cases hk : k = i
        · have hlook : childAt b.children i = some v := by
            rw [hsplit, childAt_append_none i pre _
              (fun p hp => Nat.ne_of_lt (hpre p hp))]
            simp [childAt, hk]
          obtain ⟨ih1, ih2, ih3⟩ := ih (i + 1) (pre ++ [(k, v)]) rest
            (by rw [hsplit]; simp)
            (by
              intro p hp
              rw [List.mem_append] at hp
              rcases hp with hp | hp
              · exact Nat.lt_trans (hpre p hp) (Nat.lt_succ_self i)
              · rw [List.mem_singleton] at hp
                subst hp
                omega)
            (fun p hp => by have := hrest p hp; omega)
            (by omega)
          have hstep : k < i + 1 := by omega
          refine ⟨?_, ?_, ?_⟩ <;>
            simp [faCollectVals, faCollectInts, faCollectFloats,
              jsvIteratorHasElementFA, hhas, jsvIteratorGetValueFA,
              jsvIteratorGetIntegerValueFA, jsvIteratorGetFloatValueFA,
              jsvIteratorNextFA, List.range'_succ, hlook, hk, hstep,
              ih1, ih2, ih3]
        · have hik : i < k := by omega
          have hlook : childAt b.children i = none := by
            apply childAt_none
            intro p hp
            rw [hsplit, List.mem_append] at hp
            rcases hp with hp | hp
            · exact Nat.ne_of_lt (hpre p hp)
            · rw [List.mem_cons] at hp
              rcases hp with hp | hp
              · subst hp; exact hk
              · have := hrest p hp
                omega
          obtain ⟨ih1, ih2, ih3⟩ := ih (i + 1) pre ((k, v) :: rest)
            hsplit
            (fun p hp => Nat.lt_trans (hpre p hp) (Nat.lt_succ_self i))
            (by
              intro p hp
              rw [List.mem_cons] at hp
              rcases hp with hp | hp
              · subst hp; omega
              · have := hrest p hp
                omega)
            (by omega)
          have hstep : ¬ k < i + 1 := by omega
          refine ⟨?_, ?_, ?_⟩ <;>
            simp [faCollectVals, faCollectInts, faCollectFloats,
              jsvIteratorHasElementFA, hhas, jsvIteratorGetValueFA,
              jsvIteratorGetIntegerValueFA, jsvIteratorGetFloatValueFA,
              jsvIteratorNextFA, List.range'_succ, hlook, hk, hstep,
              ih1, ih2, ih3]

/-- C6: a unified cursor created over an array with the FULL-ARRAY flag
enumerates every logical index `0 … length-1`: the collected values are the
sparse child's value exactly where the child's key equals the external index
and the null hole sentinel otherwise, get-integer yields `0` and get-float
yields NaN at holes, and next increments the external index and advances the
children cursor exactly when its current key is strictly below the new
index.  (The children are assumed stored with strictly ascending integer
keys, the order the Espruino array representation maintains.) -/
theorem c6_fullarray_enumeration (a : JsArrayObj)
    (hsorted : a.children.Pairwise (fun p q => p.1 < q.1)) :
    (faCollectVals a.length (jsvIteratorNewFullArray a) =
      (List.range a.length).map (fun j => childAt a.children j)) ∧
    (faCollectInts a.length (jsvIteratorNewFullArray a) =
      (List.range a.length).map
        (fun j => ((childAt a.children j).map jsvGetIntegerV).getD 0)) ∧
    (faCollectFloats a.length (jsvIteratorNewFullArray a) =
      (List.range a.length).map
        (fun j => ((childAt a.children j).map jsvGetFloatV).getD .nan)) ∧
    (∀ (i : Nat) (c : JsArrayObj) (k : Nat) (v : JsVal)
      (rest : List (Nat × JsVal)),
      jsvIteratorNextFA ⟨i, c, (k, v) :: rest⟩ =
        ⟨i + 1, c, if k < i + 1 then rest else (k, v) :: rest⟩) := by
  obtain ⟨h1, h2, h3⟩ := fa_collect_aux a hsorted a.length 0 [] a.children
    rfl (by simp) (fun p hp => Nat.zero_le _) (by omega)
  have hr : List.range a.length = List.range' 0 a.length :=
    List.range_eq_range' a.length
  refine ⟨?_, ?_, ?_, ?_⟩
  · rw [hr]; exact h1
  · rw [hr]; exact h2
  · rw [hr]; exact h3
  · intro i c k v rest
    by_cases h : k < i + 1 <;> simp [jsvIteratorNextFA, h]

/-- Witness for C6, the spec's concrete example: an array of length 5 with
children at indices 0 (value 10) and 3 (value 30) yields the integer values
`[10, 0, 0, 30, 0]`. -/
theorem c6_witness :
    faCollectInts 5 (jsvIteratorNewFullArray
      ⟨5, [(0, .num 10), (3, .num 30)]⟩) = [10, 0, 0, 30, 0] := by
  have h := (c6_fullarray_enumeration ⟨5, [(0, .num 10), (3, .num 30)]⟩
    (by simp)).2.1
  rw [h]
  rfl

/-! ## Claims C1, C7, C10: the callback walker -/

theorem jsValFuel_pos (v : JsVal) : 1 ≤ jsValFuel v := by
  cases v <;> rw [jsValFuel] <;> omega

theorem jsOptFuel_pos (ov : Option JsVal) : 1 ≤ jsOptFuel ov := by
  cases ov <;> rw [jsOptFuel] <;> omega

theorem jsListFuel_pos (cs : List (Nat × JsVal)) : 1 ≤ jsListFuel cs := by
  cases cs <;> rw [jsListFuel] <;> omega

theorem jsListFuel_mem (cs : List (Nat × JsVal)) (p : Nat × JsVal)
    (h : p ∈ cs) : 1 + jsValFuel p.2 ≤ jsListFuel cs := by
  induction cs with
  | nil => simp at h
  | cons q cs ih =>
      rw [List.mem_cons] at h
      rw [jsListFuel]
      rcases h with h | h
      · subst h
        have := jsListFuel_pos cs
        omega
      · have := ih h
        omega

theorem arrLoopF_congr (f g : Option JsVal → Bool × List Int × Nat)
    (cs : List (Nat × JsVal))
    (hnone : f none = g none)
    (hsome : ∀ p ∈ cs, f (some p.2) = g (some p.2)) :
    ∀ (rem : Nat) (itr : JsvIteratorFullArray),
      (∀ p ∈ itr.it, p ∈ cs) →
      arrLoopF f rem itr = arrLoopF g rem itr := by
  intro rem
  induction rem with
  | zero => intro itr hsub; rfl
  | succ rem ih =>
      intro itr hsub
      rw [arrLoopF, arrLoopF]
      have hval : f (jsvIteratorGetValueFA itr) =
          g (jsvIteratorGetValueFA itr) := by
        rw [jsvIteratorGetValueFA]
        rcases hit : itr.it with _ | ⟨⟨k, v⟩, rest⟩
        · exact hnone
        · dsimp only
          by_cases hk : k = itr.index
          · rw [if_pos hk]
            apply hsome (k, v)
            apply hsub (k, v)
            rw [hit]
            exact List.mem_cons_self _ _
          · rw [if_neg hk]
            exact hnone
      have hnextsub : ∀ p ∈ (jsvIteratorNextFA itr).it, p ∈ cs := by
        intro p hp
        apply hsub
        rw [jsvIteratorNextFA] at hp
        rcases hit : itr.it with _ | ⟨⟨k, v⟩, rest⟩
        · rw [hit] at hp
          simp at hp
        · rw [hit] at hp
          dsimp only at hp
          by_cases hk : k < itr.index + 1
          · rw [if_pos hk] at hp
            dsimp only at hp
            exact List.mem_cons_of_mem _ hp
          · rw [if_neg hk] at hp
            exact hp
      rw [hval, ih (jsvIteratorNextFA itr) hnextsub]

theorem iterF_fuel_eq :
    ∀ (f1 f2 : Nat) (ov : Option JsVal),
      jsOptFuel ov ≤ f1 → jsOptFuel ov ≤ f2 →
      jsvIterateCallbackF f1 ov = jsvIterateCallbackF f2 ov := by
  intro f1
  induction f1 using Nat.strong_induction_on with
  | _ f1 ih =>
      intro f2 ov h1 h2
      have hpos : 1 ≤ jsOptFuel ov := jsOptFuel_pos ov
      rcases f1 with _ | a
      · omega
      rcases f2 with _ | b
      · omega
      rcases ov with _ | v
      · simp only [jsvIterateCallbackF]
      rcases v with n | chain | view | ⟨hasCB, cbIsFn, cbR, cP, dP⟩ | ⟨len, cs⟩ | _
      · simp only [jsvIterateCallbackF]
      · simp only [jsvIterateCallbackF]
      · simp only [jsvIterateCallbackF]
      · -- object: the two recursion sites get the fuel bound from the
        -- object's own fuel
        have hoa : 1 + jsOptFuel cbR + jsOptFuel cP + jsOptFuel dP ≤ a := by
          rw [jsOptFuel, jsValFuel] at h1
          omega
        have hob : 1 + jsOptFuel cbR + jsOptFuel cP + jsOptFuel dP ≤ b := by
          rw [jsOptFuel, jsValFuel] at h2
          omega
        rw [jsvIterateCallbackF.eq_def]
        conv_rhs => rw [jsvIterateCallbackF.eq_def]
        dsimp only
        by_cases hcb : (hasCB && cbIsFn) = true
        · simp only [hcb, if_true]
          rcases cbR with _ | r
          · rfl
          · have hra : jsOptFuel (some r) ≤ a := by omega
            have hrb : jsOptFuel (some r) ≤ b := by omega
            exact ih a (Nat.lt_succ_self a) b (some r) hra hrb
        · simp only [Bool.not_eq_true] at hcb
          simp only [hcb, Bool.false_eq_true, if_false]
          rcases cP with _ | c
          · rfl
          rcases dP with _ | dd
          · rfl
          have hda : jsOptFuel (some dd) ≤ a := by omega
          have hdb : jsOptFuel (some dd) ≤ b := by omega
          have hd : jsvIterateCallbackF a (some dd) =
              jsvIterateCallbackF b (some dd) :=
            ih a (Nat.lt_succ_self a) b (some dd) hda hdb
          simp only [hd]
      · -- array: the loop recurses on the children, each below the list fuel
        have hoa : 1 + jsListFuel cs ≤ a := by
          rw [jsOptFuel, jsValFuel] at h1
          omega
        have hob : 1 + jsListFuel cs ≤ b := by
          rw [jsOptFuel, jsValFuel] at h2
          omega
        rw [jsvIterateCallbackF.eq_def]
        conv_rhs => rw [jsvIterateCallbackF.eq_def]
        dsimp only
        apply arrLoopF_congr _ _ cs
        · have h1a : jsOptFuel none ≤ a := by
            rw [jsOptFuel]
            omega
          have h1b : jsOptFuel none ≤ b := by
            rw [jsOptFuel]
            omega
          exact ih a (Nat.lt_succ_self a) b none h1a h1b
        · intro p hp
          have hm := jsListFuel_mem cs p hp
          have hpa : jsOptFuel (some p.2) ≤ a := by
            rw [jsOptFuel]
            omega
          have hpb : jsOptFuel (some p.2) ≤ b := by
            rw [jsOptFuel]
            omega
          exact ih a (Nat.lt_succ_self a) b (some p.2) hpa hpb
        · intro p hp
          exact hp
      · simp only [jsvIterateCallbackF]

theorem iterF_emits (f : Nat) (v : JsVal) (h : jsOptFuel (some v) ≤ f) :
    jsvIterateCallbackF f (some v) = jsvIterateCallbackEmits v :=
  iterF_fuel_eq f (jsOptFuel (some v)) (some v) h (Nat.le_refl _)

theorem iterRepeat_const_true (r : Bool × List Int × Nat) (h : r.1 = true) :
    ∀ m, iterRepeat (fun _ => r) m =
      (true, (List.replicate m r.2.1).flatten, m * r.2.2) := by
  intro m
  induction m with
  | zero => simp [iterRepeat]
  | succ m ih =>
      rw [iterRepeat]
      simp only [h, if_true, ih, List.replicate_succ, List.flatten_cons,
        Prod.mk.injEq]
      refine ⟨trivial, trivial, by ring⟩

theorem iterRepeat_const_false (r : Bool × List Int × Nat) (h : r.1 = false)
    (m : Nat) (hm : 1 ≤ m) : iterRepeat (fun _ => r) m = r := by
  rcases m with _ | m
  · omega
  · rw [iterRepeat]
    simp [h]

theorem toInt32_of_range (n : Int) (h1 : -(2 ^ 31) ≤ n) (h2 : n < 2 ^ 31) :
    toInt32 n = n := by
  show (if 2 ^ 31 ≤ n % (2 ^ 32 : Int) then n % 2 ^ 32 - 2 ^ 32
    else n % 2 ^ 32) = n
  split <;> omega

theorem emits_obj_eq (hasCB cbIsFn : Bool) (cbR cP dP : Option JsVal) :
    jsvIterateCallbackEmits (.obj hasCB cbIsFn cbR cP dP) =
      jsvIterateCallbackF
        (jsValFuel (.obj hasCB cbIsFn cbR cP dP) + 1)
        (some (.obj hasCB cbIsFn cbR cP dP)) := by
  rw [jsvIterateCallbackEmits]
  congr 1
  rw [jsOptFuel]
  omega

/-- C1: the object arm of the callback walker.  With a function-valued
callback property the walker delegates to the value the callback returns
(recursing on it) or succeeds silently when it returns none, never consulting
the count/data properties; otherwise, with a numeric count and a data
property it recurses on data exactly count times (the count read through the
C `int` cast), short-circuiting at the first failing recursion; otherwise it
reports a type error and fails. -/
theorem c1_object_dispatch :
    (∀ (r : JsVal) (cP dP : Option JsVal),
      jsvIterateCallbackEmits (.obj true true (some r) cP dP) =
        jsvIterateCallbackEmits r) ∧
    (∀ (cP dP : Option JsVal),
      jsvIterateCallbackEmits (.obj true true none cP dP) = (true, [], 0)) ∧
    (∀ (hasCB cbIsFn : Bool) (cbR : Option JsVal) (n : Int) (d : JsVal),
      ¬(hasCB = true ∧ cbIsFn = true) → 0 ≤ n → n < 2 ^ 31 →
      ((jsvIterateCallbackEmits d).1 = true →
        jsvIterateCallbackEmits
            (.obj hasCB cbIsFn cbR (some (.num n)) (some d)) =
          (true,
           (List.replicate n.toNat (jsvIterateCallbackEmits d).2.1).flatten,
           n.toNat * (jsvIterateCallbackEmits d).2.2)) ∧
      ((jsvIterateCallbackEmits d).1 = false → 1 ≤ n →
        jsvIterateCallbackEmits
            (.obj hasCB cbIsFn cbR (some (.num n)) (some d)) =
          jsvIterateCallbackEmits d)) ∧
    (∀ (hasCB cbIsFn : Bool) (cbR cP dP : Option JsVal),
      ¬(hasCB = true ∧ cbIsFn = true) →
      (cP = none ∨ dP = none ∨
        ∃ c, cP = some c ∧ isNumericV c = false) →
      jsvIterateCallbackEmits (.obj hasCB cbIsFn cbR cP dP) =
        (false, [], 1)) := by
  refine ⟨?_, ?_, ?_, ?_⟩
  · intro r cP dP
    rw [emits_obj_eq, jsvIterateCallbackF.eq_def]
    dsimp only
    simp only [Bool.and_self, if_true]
    exact iterF_emits _ r (by rw [jsValFuel]; omega)
  · intro cP dP
    rw [emits_obj_eq, jsvIterateCallbackF.eq_def]
    dsimp only
    simp only [Bool.and_self, if_true]
  · intro hasCB cbIsFn cbR n d hcb hn0 hn31
    have hfalse : (hasCB && cbIsFn) = false := by
      cases hasCB <;> cases cbIsFn <;> simp_all
    have hto : toInt32 n = n := toInt32_of_range n (by omega) hn31
    have hunf : jsvIterateCallbackEmits
        (.obj hasCB cbIsFn cbR (some (.num n)) (some d)) =
        iterRepeat (fun _ => jsvIterateCallbackEmits d) n.toNat := by
      rw [emits_obj_eq, jsvIterateCallbackF.eq_def]
      dsimp only
      simp only [hfalse, Bool.false_eq_true, if_false]
      have hstep : jsvIterateCallbackF
          (jsValFuel (.obj hasCB cbIsFn cbR (some (.num n)) (some d)))
          (some d) = jsvIterateCallbackEmits d :=
        iterF_emits _ d (by rw [jsValFuel]; omega)
      simp only [isNumericV, jsvGetIntegerV, hstep, hto, if_true]
    constructor
    · intro htrue
      rw [hunf, iterRepeat_const_true _ htrue]
    · intro hfail hn1
      rw [hunf, iterRepeat_const_false _ hfail n.toNat (by omega)]
  · intro hasCB cbIsFn cbR cP dP hcb hbad
    have hfalse : (hasCB && cbIsFn) = false := by
      cases hasCB <;> cases cbIsFn <;> simp_all
    rw [emits_obj_eq, jsvIterateCallbackF.eq_def]
    dsimp only
    simp only [hfalse, Bool.false_eq_true, if_false]
    rcases hbad with h | h | ⟨c, hc, hnum⟩
    · subst h
      rfl
    · subst h
      rcases cP with _ | c
      · rfl
      · rfl
    · subst hc
      rcases dP with _ | dd
      · rfl
      · simp [hnum]

/-- Witness for C1: a callback-function object delegates to the returned
value; a `\x7bdata,count\x7d` object with count 3 over data 5 emits three
fives; and an object with neither shape fails with one type error. -/
theorem c1_witness :
    jsvIterateCallbackEmits (.obj true true (some (.num 7)) none none) =
      (true, [7], 0) ∧
    jsvIterateCallbackEmits
        (.obj false false none (some (.num 3)) (some (.num 5))) =
      (true, [5, 5, 5], 0) ∧
    jsvIterateCallbackEmits (.obj false false none none (some (.num 5))) =
      (false, [], 1) := by
  have h := c1_object_dispatch
  refine ⟨?_, ?_, ?_⟩
  · rw [h.1 (.num 7) none none]
    decide
  · rw [(h.2.2.1 false false none 3 (.num 5) (by decide) (by decide)
      (by decide)).1 (by decide)]
    decide
  · exact h.2.2.2 false false none none (some (.num 5)) (by decide)
      (Or.inl rfl)

theorem count_fold (es : List Int) :
    ∀ (a : Nat),
      es.foldl (fun acc d => jsvIterateCallbackCountCb d acc) a =
        a + es.length := by
  induction es with
  | nil => intro a; simp
  | cons d es ih =>
      intro a
      rw [List.foldl_cons, ih, jsvIterateCallbackCountCb]
      simp
      omega

theorem tb_fold (s : Nat) (buf : List Nat) (hlen : buf.length = s) :
    ∀ (es : List Int),
      es.foldl (fun acc d => jsvIterateCallbackToBytesCb d acc)
          ⟨buf, 0, s⟩ =
        ⟨(es.take s).map (fun d => (d.emod 256).toNat) ++
            buf.drop (min es.length s), es.length, s⟩ := by
  intro es
  induction es using List.reverseRecOn with
  | nil => simp
  | append_singleton es d ih =>
      rw [List.foldl_append, ih, List.foldl_cons, List.foldl_nil,
        jsvIterateCallbackToBytesCb]
      dsimp only
      by_cases hlt : es.length < s
      · have hmin : min es.length s = es.length := by omega
        have hmin2 : min (es ++ [d]).length s = es.length + 1 := by
          simp only [List.length_append, List.length_cons, List.length_nil]
          omega
        have htk : es.take s = es := List.take_of_length_le (by omega)
        have htk2 : (es ++ [d]).take s = es ++ [d] :=
          List.take_of_length_le (by simp; omega)
        rw [if_pos hlt, hmin, htk, hmin2, htk2]
        have hset : ((es.map fun d => (d.emod 256).toNat) ++
            buf.drop es.length).set es.length (d.emod 256).toNat =
            (es.map fun d => (d.emod 256).toNat) ++
              (buf.drop es.length).set 0 (d.emod 256).toNat := by
          rw [List.set_append]
          rw [if_neg]
          · simp
          · simp
        rw [hset]
        have hdrop : buf.drop es.length =
            buf[es.length] :: buf.drop (es.length + 1) :=
          List.drop_eq_getElem_cons (by omega)
        rw [hdrop]
        simp [List.length_append]
        rw [hdrop, List.set_cons_zero]
      · have hmin : min es.length s = s := by omega
        have hmin2 : min (es ++ [d]).length s = s := by
          simp only [List.length_append, List.length_cons, List.length_nil]
          omega
        have htk2 : (es ++ [d]).take s = es.take s :=
          List.take_append_of_le_length (by omega)
        rw [if_neg hlt, hmin, hmin2, htk2]
        simp [List.length_append]

/-- C7: for any value and any buffer of the declared size, to-bytes writes
the low byte of each of the first min(count, size) emitted integers into the
buffer in emission order, leaves every position from the size onward
unchanged (the final buffer keeps its length, with its tail beyond the
written prefix equal to the original's), and returns count — the total
number of sink invocations the walker makes, which equals the length of the
emission trace. -/
theorem c7_to_bytes_writes (x : JsVal) (buf : List Nat) (s : Nat)
    (hlen : buf.length = s) :
    jsvIterateCallbackToBytes x buf s =
      (((jsvIterateCallbackEmits x).2.1).length,
       (((jsvIterateCallbackEmits x).2.1).take s).map
           (fun d => (d.emod 256).toNat) ++
         buf.drop (min ((jsvIterateCallbackEmits x).2.1).length s)) ∧
    jsvIterateCallbackCount x = ((jsvIterateCallbackEmits x).2.1).length ∧
    (jsvIterateCallbackToBytes x buf s).2.length = buf.length := by
  have hfold := tb_fold s buf hlen (jsvIterateCallbackEmits x).2.1
  have hcnt := count_fold (jsvIterateCallbackEmits x).2.1 0
  refine ⟨?_, ?_, ?_⟩
  · rw [jsvIterateCallbackToBytes, jsvIterateCallback]
    dsimp only
    rw [hfold]
  · rw [jsvIterateCallbackCount, jsvIterateCallback]
    dsimp only
    rw [hcnt]
    omega
  · rw [jsvIterateCallbackToBytes, jsvIterateCallback]
    dsimp only
    rw [hfold]
    dsimp only
    simp only [List.length_append, List.length_map, List.length_take,
      List.length_drop]
    omega

/-- Witness for C7: the number 300 emits one integer; into a three-byte
buffer its low byte 44 lands at offset 0, the rest is untouched, and the
returned count is 1. -/
theorem c7_witness :
    jsvIterateCallbackToBytes (.num 300) [1, 2, 3] 3 = (1, [44, 2, 3]) ∧
    jsvIterateCallbackCount (.num 300) = 1 := by
  have h := c7_to_bytes_writes (.num 300) [1, 2, 3] 3 rfl
  constructor
  · rw [h.1]
    decide
  · rw [h.2.1]
    decide

/-- C10: an object with no function-valued callback property but with a data
property and a numeric count property whose value is zero or negative (as
the C `int` cast reads it) makes the walker succeed without invoking the
sink and without raising a type error; consequently its count is 0 and
to-bytes on it writes nothing. -/
theorem c10_zero_count_success (hasCB cbIsFn : Bool) (n : Int) (d : JsVal)
    (cbR : Option JsVal)
    (hcb : ¬(hasCB = true ∧ cbIsFn = true))
    (hn1 : -(2 ^ 31) ≤ n) (hn2 : n ≤ 0) :
    jsvIterateCallbackEmits
        (.obj hasCB cbIsFn cbR (some (.num n)) (some d)) = (true, [], 0) ∧
    jsvIterateCallbackCount
        (.obj hasCB cbIsFn cbR (some (.num n)) (some d)) = 0 ∧
    ∀ (buf : List Nat) (sz : Nat),
      jsvIterateCallbackToBytes
          (.obj hasCB cbIsFn cbR (some (.num n)) (some d)) buf sz =
        (0, buf) := by
  have hfalse : (hasCB && cbIsFn) = false := by
    cases hasCB <;> cases cbIsFn <;> simp_all
  have hto : toInt32 n = n := toInt32_of_range n hn1 (by omega)
  have htn : (toInt32 n).toNat = 0 := by
    rw [hto]
    omega
  have hemits : jsvIterateCallbackEmits
      (.obj hasCB cbIsFn cbR (some (.num n)) (some d)) = (true, [], 0) := by
    rw [emits_obj_eq, jsvIterateCallbackF.eq_def]
    dsimp only
    simp only [hfalse, Bool.false_eq_true, if_false]
    simp only [isNumericV, jsvGetIntegerV, htn, if_true]
    rfl
  refine ⟨hemits, ?_, ?_⟩
  · rw [jsvIterateCallbackCount, jsvIterateCallback, hemits]
    rfl
  · intro buf sz
    rw [jsvIterateCallbackToBytes, jsvIterateCallback, hemits]
    rfl

/-- Witness for C10: count −3 over numeric data succeeds with no emissions,
count 0 and an untouched buffer. -/
theorem c10_witness :
    jsvIterateCallbackEmits
        (.obj false false none (some (.num (-3))) (some (.num 7))) =
      (true, [], 0) ∧
    jsvIterateCallbackCount
        (.obj false false none (some (.num (-3))) (some (.num 7))) = 0 ∧
    jsvIterateCallbackToBytes
        (.obj false false none (some (.num (-3))) (some (.num 7))) [9, 9] 2 =
      (0, [9, 9]) := by
  have h := c10_zero_count_success false false (-3) (.num 7) none
    (by decide) (by decide) (by decide)
  exact ⟨h.1, h.2.1, h.2.2 [9, 9] 2⟩
